import Mathlib

/-!
Verification of the AlphaStream news-intelligence core.

This file gives a shallow embedding, in Lean 4, of the parts of the
repository that the specification's claims are about:

* `ChunkProcessor` (src/src/pipeline/rag_core.py) — sentence splitting and
  greedy chunk packing;
* `NewsAggregator` (src/backend/src/connectors/news_aggregator.py) —
  fingerprint deduplication against a persistent seen-set;
* `VectorStore` (src/src/pipeline/retrieval.py) — in-memory dense store;
* `SparseRetriever` (src/src/pipeline/retrieval.py) — BM25 index;
* `HybridRetriever` (src/src/pipeline/retrieval.py) — RRF fusion;
* `RAGPipeline.ingest_article` (src/src/pipeline/rag_core.py);
* `MarketState` (src/src/api/app.py);
* `DecisionAgent` (src/src/agents/decision_agent.py).

Python floats are modelled as exact real (or rational) arithmetic; `math.log`
is `Real.log`.  External collaborators (HTTP sources, the sentence-transformer
embedder, the LLM client) are taken as explicit function or data parameters,
matching the specification's view of them as injected pure collaborators.
Python's stable `sorted` and numpy's `argsort` (which uses an insertion sort
on the small candidate arrays that occur here) are modelled as stable
insertion sorts.
-/

/-- Canonical article shape produced by the source adapters and consumed by
the aggregator and the ingestion pipeline. -/
structure Article where
  id : String := ""
  title : String := ""
  description : String := ""
  content : String := ""
  source : String := ""
  url : String := ""
  published_at : String := ""
  deriving Repr, DecidableEq

/-- Chunk record built by `RAGPipeline.ingest_article`: the chunk text plus
denormalized article metadata. -/
structure ChunkDoc where
  text : String := ""
  article_id : String := ""
  title : String := ""
  source : String := ""
  url : String := ""
  published_at : String := ""
  chunk_index : Nat := 0
  deriving Repr, DecidableEq, Inhabited

/-! ## Transparent string helpers

Core `String` functions (`trim`, `split`, `toLower`, `intercalate`, `<`) are
implemented on byte positions or by well-founded recursion, which the kernel
does not evaluate; the embedding therefore uses the following char-level
versions, each a direct structural implementation of the corresponding
Python string operation. -/

/-- Engine of Python `s.split()`: split on whitespace runs, dropping empty
pieces. -/
def wsSplitAux : List Char → List Char → List String
  | [], acc => if acc = [] then [] else [String.mk acc.reverse]
  | c :: cs, acc =>
    if c.isWhitespace then
      if acc = [] then wsSplitAux cs []
      else String.mk acc.reverse :: wsSplitAux cs []
    else wsSplitAux cs (c :: acc)

/-- Python `s.split()`. -/
def pyWsSplit (s : String) : List String :=
  wsSplitAux s.data []

/-- Python `s.strip()`: drop whitespace from both ends. -/
def pyStrip (s : String) : String :=
  String.mk (((s.data.dropWhile Char.isWhitespace).reverse.dropWhile Char.isWhitespace).reverse)

/-- Python `s.lower()`. -/
def pyLower (s : String) : String :=
  String.mk (s.data.map Char.toLower)

/-- Join char lists with a separator (`sep.flatten(pieces)`). -/
def joinSepChars (sep : List Char) : List (List Char) → List Char
  | [] => []
  | [x] => x
  | x :: y :: xs => x ++ sep ++ joinSepChars sep (y :: xs)

/-- Python `" ".flatten(pieces)`. -/
def joinSpace (l : List String) : String :=
  String.mk (joinSepChars [' '] (l.map String.data))

/-! ## ChunkProcessor (src/src/pipeline/rag_core.py) -/

namespace ChunkProcessor

/-- Whitespace split discarding empty pieces: Python `s.split()`. -/
def pySplit (s : String) : List String :=
  pyWsSplit s

/-- Sentence-terminator test for the regex `(?<=[.!?])\s+`. -/
def isTerminator (c : Char) : Bool :=
  c = '.' || c = '!' || c = '?'

/-- Character-level engine of `re.split(r"(?<=[.!?])\s+", text)`: each
maximal whitespace run directly preceded by `.`, `!` or `?` separates two
pieces.  The flag records being inside such a separator run (the run is
consumed one character per step, keeping the recursion structural). -/
def splitSentChars : List Char → Bool → List Char → List String
  | [], _, acc => [String.mk acc.reverse]
  | c :: cs, inSep, acc =>
    if inSep && c.isWhitespace then
      splitSentChars cs true acc
    else if isTerminator c && (match cs with | [] => false | d :: _ => d.isWhitespace) then
      String.mk (c :: acc).reverse :: splitSentChars cs true []
    else
      splitSentChars cs false (c :: acc)

/-- `ChunkProcessor._split_sentences`: regex split, strip each piece, keep the
non-empty ones. -/
def split_sentences (text : String) : List String :=
  ((splitSentChars text.data false []).map pyStrip).filter (fun s => s ≠ "")

/-- One step of the greedy sentence-packing loop in
`ChunkProcessor.chunk_text`. -/
def packStep (maxChunkSize : Nat) :
    List String × List String × Nat → String → List String × List String × Nat
  | (chunks, currentChunk, currentLength), sentence =>
    let sentenceLength := (pySplit sentence).length
    if maxChunkSize < currentLength + sentenceLength then
      (if currentChunk ≠ [] then chunks ++ [joinSpace currentChunk] else chunks,
       [sentence], sentenceLength)
    else
      (chunks, currentChunk ++ [sentence], currentLength + sentenceLength)

/-- `ChunkProcessor.chunk_text`: split into sentences, greedily pack them into
chunks of at most `maxChunkSize` whitespace-separated words (default 512),
flush the trailing chunk. -/
def chunk_text (maxChunkSize : Nat) (text : String) : List String :=
  if text = "" ∨ pyStrip text = "" then []
  else
    let sentences := split_sentences text
    let st := sentences.foldl (packStep maxChunkSize) ([], [], 0)
    if st.2.1 ≠ [] then st.1 ++ [joinSpace st.2.1] else st.1

end ChunkProcessor

/-! ## NewsAggregator (src/backend/src/connectors/news_aggregator.py) -/

namespace NewsAggregator

/-- `NewsAggregator._generate_id`: the md5 hex digest of the title
concatenated with the URL.  The digest is modelled by the concatenation
itself: the code's invariant is stated at the level of fingerprint equality,
and md5 is a fixed deterministic function of this string. -/
def generate_id (a : Article) : String :=
  a.title ++ a.url

/-- Deduplication loop of `NewsAggregator.fetch_all` over the concatenated
per-source results (the parallel HTTP fetch and the RSS conversion are
external collaborators, so their union arrives as the input list).  Returns
the emitted unique articles and the updated persistent seen-set. -/
def dedupLoop (seen : List String) : List Article → List Article × List String
  | [] => ([], seen)
  | a :: rest =>
    let aid := generate_id a
    if aid ∈ seen then dedupLoop seen rest
    else
      let res := dedupLoop (aid :: seen) rest
      (a :: res.1, res.2)

/-- `NewsAggregator.fetch_all`, as a state transformer on the seen-set. -/
def fetch_all (seen : List String) (incoming : List Article) :
    List Article × List String :=
  dedupLoop seen incoming

/-- A sequence of `fetch_all` invocations from a given seen-set, returning
the list of per-invocation results. -/
def runFetches (seen : List String) : List (List Article) → List (List Article) × List String
  | [] => ([], seen)
  | b :: bs =>
    let r := fetch_all seen b
    let rs := runFetches r.2 bs
    (r.1 :: rs.1, rs.2)

/-- Fresh aggregator state (`NewsAggregator.__init__`): empty seen-set. -/
def initSeen : List String := []

end NewsAggregator

/-! ## VectorStore (src/src/pipeline/rag_core.py and src/src/pipeline/retrieval.py;
the two copies of the class are identical) -/

/-- In-memory dense store: the document list plus the optional embedding
matrix (a list of rows). -/
structure VectorStore where
  documents : List ChunkDoc := []
  embeddings : Option (List (List ℝ)) := none

namespace VectorStore

/-- `VectorStore.__init__`: no documents, no matrix. -/
def init : VectorStore := {}

/-- `VectorStore.add_document`: embed the text unless an embedding was passed
in, append the document, and start or `vstack` the matrix.  The
sentence-transformer is the injected collaborator `embed`. -/
def add_document (embed : String → List ℝ) (st : VectorStore) (doc : ChunkDoc)
    (embedding : Option (List ℝ)) : VectorStore :=
  let e := match embedding with
    | some e => e
    | none => embed doc.text
  { documents := st.documents ++ [doc]
    embeddings :=
      match st.embeddings with
      | none => some [e]
      | some m => some (m ++ [e]) }

/-- `VectorStore.add_documents`: batch-embed all texts, then add one by one
with the precomputed embeddings; empty input returns immediately. -/
def add_documents (embed : String → List ℝ) (st : VectorStore)
    (docs : List ChunkDoc) : VectorStore :=
  if docs = [] then st
  else
    let embs := docs.map (fun d => embed d.text)
    (docs.zip embs).foldl
      (fun s (p : ChunkDoc × List ℝ) => add_document embed s p.1 (some p.2)) st

/-- `VectorStore.clear`. -/
def clear (_st : VectorStore) : VectorStore :=
  { documents := [], embeddings := none }

/-- States of the dense store reachable by any sequence of `add_document`,
`add_documents` and `clear` calls, under any embedder. -/
inductive Reachable : VectorStore → Prop
  | init : Reachable init
  | add_document (embed : String → List ℝ) (st : VectorStore) (doc : ChunkDoc)
      (embedding : Option (List ℝ)) :
      Reachable st → Reachable (add_document embed st doc embedding)
  | add_documents (embed : String → List ℝ) (st : VectorStore) (docs : List ChunkDoc) :
      Reachable st → Reachable (add_documents embed st docs)
  | clear (st : VectorStore) : Reachable st → Reachable (clear st)

/-- Number of rows of the optional embedding matrix. -/
def rows : Option (List (List ℝ)) → Nat
  | none => 0
  | some m => m.length

end VectorStore

/-! ## RAGPipeline.ingest_article (src/src/pipeline/rag_core.py) -/

namespace RAGPipeline

/-- `RAGPipeline.ingest_article`: combine title and content, chunk, build the
chunk records, add them to the vector store; returns the new store and the
number of chunks created. -/
def ingest_article (embed : String → List ℝ) (st : VectorStore) (article : Article) :
    VectorStore × Nat :=
  let full_text := article.title ++ ". " ++ article.content
  let chunks := ChunkProcessor.chunk_text 512 full_text
  let docs := chunks.enum.map (fun p =>
    { text := p.2
      article_id := article.id
      title := article.title
      source := article.source
      url := article.url
      published_at := article.published_at
      chunk_index := p.1 : ChunkDoc })
  (VectorStore.add_documents embed st docs, chunks.length)

end RAGPipeline

/-! ## MarketState (src/src/api/app.py) -/

/-- Python-dict assignment `d[key] = val`: replace the value of the first
matching key in place, or append the binding at the end. -/
def setKey {β : Type} : List (String × β) → String → β → List (String × β)
  | [], key, val => [(key, val)]
  | (k, v) :: rest, key, val =>
    if k = key then (k, val) :: rest else (k, v) :: setKey rest key val

/-- Global per-subject market sentiment registry: ticker → score and
ticker → ISO timestamp. -/
structure MarketState where
  sentiments : List (String × ℚ) := []
  last_updated : List (String × String) := []
  deriving DecidableEq

namespace MarketState

/-- `MarketState.__init__`: both dicts empty. -/
def init : MarketState := {}

/-- `MarketState.update`: unconditionally store the score and stamp the
subject with the current wall-clock time (`datetime.utcnow().isoformat()`,
passed here as the explicit argument `now`). -/
def update (st : MarketState) (ticker : String) (score : ℚ) (now : String) :
    MarketState :=
  { sentiments := setKey st.sentiments ticker score
    last_updated := setKey st.last_updated ticker now }

end MarketState

/-! ## DecisionAgent (src/src/agents/decision_agent.py) -/

/-- Structured decision verdict (the JSON object the decision prompt asks
for, and the shape the fallback returns). -/
structure Verdict where
  recommendation : String
  confidence : ℚ
  reasoning : String
  primary_driver : String
  deriving Repr, DecidableEq

/-- Sentiment-agent output dict; only the field read by the fallback is
modelled, `none` standing for an absent key. -/
structure SentimentData where
  sentiment_score : Option ℚ := none

/-- Technical-agent output dict; only the field read by the fallback is
modelled. -/
structure TechnicalData where
  technical_score : Option ℚ := none

/-- Risk-agent output dict (unused by the fallback). -/
structure RiskData where
  risk_score : Option ℚ := none

namespace DecisionAgent

/-- `DecisionAgent._heuristic_fallback`: weighted average of the two scores
(`.get(key, 0)` is `Option.getD 0`), thresholded at ±0.3. -/
def heuristic_fallback (sentiment : SentimentData) (technical : TechnicalData)
    (_risk : RiskData) : Verdict :=
  let sent_score := sentiment.sentiment_score.getD 0
  let tech_score := technical.technical_score.getD 0
  let final_score := sent_score * (6/10) + tech_score * (4/10)
  let recommendation :=
    if 3/10 < final_score then "BUY"
    else if final_score < -(3/10) then "SELL"
    else "HOLD"
  { recommendation := recommendation
    confidence := 1/2
    reasoning := "Fallback logic used due to agent error."
    primary_driver := "Heuristic" }

/-- `DecisionAgent.decide`: the whole LLM call and JSON parse sit in one
`try` block, so `llmOutcome = none` models every failure mode (transport
error or unparseable output); any such failure falls back to the heuristic. -/
def decide (llmOutcome : Option Verdict) (sentiment : SentimentData)
    (technical : TechnicalData) (risk : RiskData) : Verdict :=
  match llmOutcome with
  | some d => d
  | none => heuristic_fallback sentiment technical risk

end DecisionAgent

/-! ## Stable sorting infrastructure

`np.argsort` (ascending; an insertion sort on the small arrays involved
here, hence stable) and Python's stable `sorted` are both modelled by
`List.insertionSort`.  The key lemma records the stable tie-break: sorting
index/key pairs whose indices increase yields a list that is lexicographically
ordered by (key, index). -/

section SortInfra

variable {α : Type} [LinearOrder α]

/-- Comparison used by the stable ascending sort of index/key pairs: compare
keys only. -/
def keyLE (p q : ℕ × α) : Prop := p.2 ≤ q.2

instance : DecidableRel (keyLE (α := α)) :=
  fun p q => inferInstanceAs (Decidable (p.2 ≤ q.2))

/-- Lexicographic (key, index) order witnessing the stability of the sort. -/
def keyLex (p q : ℕ × α) : Prop := p.2 < q.2 ∨ (p.2 = q.2 ∧ p.1 < q.1)

theorem keyLex_of_le_of_lt {p q : ℕ × α} (h : p.2 ≤ q.2) (hi : p.1 < q.1) :
    keyLex p q := by
  rcases lt_or_eq_of_le h with h' | h'
  · exact Or.inl h'
  · exact Or.inr ⟨h', hi⟩

theorem keyLex.le {p q : ℕ × α} (h : keyLex p q) : p.2 ≤ q.2 := by
  rcases h with h | ⟨h, _⟩
  · exact le_of_lt h
  · exact le_of_eq h

theorem pairwise_keyLex_orderedInsert (a : ℕ × α) (l : List (ℕ × α))
    (hl : l.Pairwise keyLex) (ha : ∀ q ∈ l, a.1 < q.1) :
    (List.orderedInsert keyLE a l).Pairwise keyLex := by
  induction l with
  | nil => simp [List.orderedInsert, List.pairwise_cons]
  | cons b t ih =>
    rw [List.orderedInsert]
    by_cases hab : keyLE a b
    · rw [if_pos hab]
      refine List.pairwise_cons.mpr ⟨?_, hl⟩
      intro x hx
      rcases List.mem_cons.mp hx with rfl | hx
      · exact keyLex_of_le_of_lt hab (ha x (List.mem_cons_self _ _))
      · have hbx : keyLex b x := (List.pairwise_cons.mp hl).1 x hx
        exact keyLex_of_le_of_lt (le_trans hab hbx.le) (ha x (List.mem_cons_of_mem _ hx))
    · rw [if_neg hab]
      have hba : b.2 < a.2 := lt_of_not_le hab
      refine List.pairwise_cons.mpr ⟨?_, ?_⟩
      · intro x hx
        rcases (List.mem_orderedInsert _).mp hx with rfl | hx
        · exact Or.inl hba
        · exact (List.pairwise_cons.mp hl).1 x hx
      · exact ih (List.pairwise_cons.mp hl).2 (fun q hq => ha q (List.mem_cons_of_mem _ hq))

theorem pairwise_keyLex_insertionSort (l : List (ℕ × α))
    (h : l.Pairwise (fun p q => p.1 < q.1)) :
    (List.insertionSort keyLE l).Pairwise keyLex := by
  induction l with
  | nil => simp [List.insertionSort]
  | cons a t ih =>
    rw [List.insertionSort]
    apply pairwise_keyLex_orderedInsert
    · exact ih (List.pairwise_cons.mp h).2
    · intro q hq
      have hq' : q ∈ t := (List.perm_insertionSort keyLE t).subset hq
      exact (List.pairwise_cons.mp h).1 q hq'

omit [LinearOrder α] in
theorem pairwise_fst_lt_enumFrom (l : List α) :
    ∀ n : ℕ, (l.enumFrom n).Pairwise (fun p q : ℕ × α => p.1 < q.1) := by
  induction l with
  | nil => intro n; simp
  | cons a t ih =>
    intro n
    refine List.pairwise_cons.mpr ⟨?_, ih (n + 1)⟩
    rintro ⟨i, x⟩ hq
    have := (List.mk_mem_enumFrom_iff_le_and_getElem?_sub.mp hq).1
    omega

omit [LinearOrder α] in
theorem pairwise_fst_lt_enum (l : List α) :
    l.enum.Pairwise (fun p q : ℕ × α => p.1 < q.1) :=
  pairwise_fst_lt_enumFrom l 0

/-- Stable ascending `np.argsort`: sort the index/key pairs by key and return
the indices. -/
def argsortAsc (keys : List α) : List ℕ :=
  (List.insertionSort keyLE keys.enum).map Prod.fst

theorem argsortAsc_perm (keys : List α) :
    List.Perm (argsortAsc keys) (List.range keys.length) := by
  have h := (List.perm_insertionSort keyLE keys.enum).map Prod.fst
  rw [List.enum_map_fst] at h
  exact h

theorem argsortAsc_pairwise (d : α) (keys : List α) :
    (argsortAsc keys).Pairwise (fun i j =>
      keys.getD i d < keys.getD j d ∨ (keys.getD i d = keys.getD j d ∧ i < j)) := by
  unfold argsortAsc
  rw [List.pairwise_map]
  have hsorted := pairwise_keyLex_insertionSort keys.enum (pairwise_fst_lt_enum keys)
  refine List.Pairwise.imp_of_mem ?_ hsorted
  intro p q hp hq hlex
  have hp' : p ∈ keys.enum := (List.perm_insertionSort keyLE keys.enum).subset hp
  have hq' : q ∈ keys.enum := (List.perm_insertionSort keyLE keys.enum).subset hq
  have hpd : keys.getD p.1 d = p.2 := by
    rw [List.getD_eq_getElem?_getD, List.mem_enum_iff_getElem?.mp hp']; rfl
  have hqd : keys.getD q.1 d = q.2 := by
    rw [List.getD_eq_getElem?_getD, List.mem_enum_iff_getElem?.mp hq']; rfl
  rw [hpd, hqd]
  exact hlex

theorem argsortAsc_mem_lt (keys : List α) {i : ℕ} (h : i ∈ argsortAsc keys) :
    i < keys.length := by
  have := (argsortAsc_perm keys).subset h
  exact List.mem_range.mp this

theorem argsortAsc_nodup (keys : List α) : (argsortAsc keys).Nodup :=
  ((argsortAsc_perm keys).nodup_iff).mpr (List.nodup_range _)

end SortInfra

/-! ## SparseRetriever (src/src/pipeline/retrieval.py) -/

/-- Python-dict lookup `d.get(key)` on an association list. -/
def lookupKey {β : Type} (t : String) : List (String × β) → Option β
  | [] => none
  | (k, v) :: rest => if k = t then some v else lookupKey t rest

namespace SparseRetriever

/-- `SparseRetriever._tokenize`: lowercase, whitespace split. -/
def tokenize (text : String) : List String :=
  pyWsSplit (pyLower text)

/-- One step of `collections.Counter` building, the dict assignment
`d[t] = d.get(t, 0) + 1`: increment an existing key in place or append a
fresh binding with count 1. -/
def bump (acc : List (String × ℕ)) (t : String) : List (String × ℕ) :=
  setKey acc t ((lookupKey t acc).getD 0 + 1)

/-- `Counter(tokens)`: token → occurrence count, keys in first-occurrence
order. -/
def counter (tokens : List String) : List (String × ℕ) :=
  tokens.foldl bump []

/-- Per-document length `sum(doc_freqs.values())`. -/
def docLen (freqs : List (String × ℕ)) : ℕ :=
  (freqs.map Prod.snd).sum

/-- The `df` Counter of `_calculate_idf`: one increment per document whose
term-frequency map holds the key. -/
def calcDf (freqsList : List (List (String × ℕ))) : List (String × ℕ) :=
  freqsList.foldl (fun acc freqs => (freqs.map Prod.fst).foldl bump acc) []

/-- The idf table written by `SparseRetriever._calculate_idf`: the float
argument of `math.log` is computed exactly in `ℚ` and the log taken in `ℝ`. -/
noncomputable def calculate_idf (freqsList : List (List (String × ℕ)))
    (corpusSize : ℕ) : List (String × ℝ) :=
  (calcDf freqsList).map (fun p =>
    (p.1, Real.log ((1 + ((corpusSize : ℚ) - (p.2 : ℚ) + 1/2) / ((p.2 : ℚ) + 1/2) : ℚ) : ℝ)))

end SparseRetriever

/-- State of `SparseRetriever`: BM25 parameters, documents, per-document
term-frequency maps, idf table, average document length, corpus size. -/
structure SparseState where
  k1 : ℚ := 3/2
  b : ℚ := 3/4
  documents : List ChunkDoc := []
  doc_freqs : List (List (String × ℕ)) := []
  idf : List (String × ℝ) := []
  avg_doc_len : ℚ := 0
  corpus_size : ℕ := 0

namespace SparseRetriever

/-- `SparseRetriever.__init__` with the default parameters `k1=1.5`,
`b=0.75`. -/
def init : SparseState := {}

/-- `SparseRetriever.add_documents`: append documents and their term
frequencies, refresh `corpus_size`, recompute the idf table from the current
snapshot, recompute `avg_doc_len`. -/
noncomputable def add_documents (st : SparseState) (docs : List ChunkDoc) : SparseState :=
  if docs = [] then st
  else
    let documents := st.documents ++ docs
    let doc_freqs := st.doc_freqs ++ docs.map (fun d => counter (tokenize d.text))
    let corpus_size := documents.length
    { st with
      documents := documents
      doc_freqs := doc_freqs
      corpus_size := corpus_size
      idf := calculate_idf doc_freqs corpus_size
      avg_doc_len := ((doc_freqs.map (fun f => (docLen f : ℚ))).sum) / (corpus_size : ℚ) }

/-- BM25 contribution of one query token to one document, zero when the term
is absent (the `tf == 0 → continue` branch). -/
noncomputable def scoreContribution (st : SparseState) (idfv : ℝ)
    (freqs : List (String × ℕ)) (token : String) : ℝ :=
  let tf := (lookupKey token freqs).getD 0
  if tf = 0 then 0
  else
    idfv * (tf : ℝ) * ((st.k1 : ℝ) + 1) /
      ((tf : ℝ) + (st.k1 : ℝ) *
        (1 - (st.b : ℝ) + (st.b : ℝ) * ((docLen freqs : ℝ) / (st.avg_doc_len : ℝ))))

/-- The score vector `np.zeros(corpus_size)` accumulated over the query
tokens; tokens without an idf entry are skipped. -/
noncomputable def bm25Scores (st : SparseState) (query : String) : List ℝ :=
  (tokenize query).foldl
    (fun scores token =>
      match lookupKey token st.idf with
      | none => scores
      | some idfv =>
        (scores.zip st.doc_freqs).map (fun p => p.1 + scoreContribution st idfv p.2 token))
    (List.replicate st.corpus_size (0 : ℝ))

/-- Index part of `SparseRetriever.search`: `np.argsort(scores)[-k:][::-1]`
filtered to strictly positive scores.  Python's `[-k:]` takes the whole list
when `k = 0`. -/
noncomputable def searchIdx (st : SparseState) (query : String) (k : ℕ) : List ℕ :=
  if st.documents = [] then []
  else
    let scores := bm25Scores st query
    let asc := argsortAsc scores
    let top := if k = 0 then asc.reverse else asc.reverse.take k
    top.filter (fun i => decide ((0 : ℝ) < scores.getD i 0))

/-- `SparseRetriever.search`: the selected documents with their BM25
scores. -/
noncomputable def search (st : SparseState) (query : String) (k : ℕ) :
    List (ChunkDoc × ℝ) :=
  (searchIdx st query k).map (fun i =>
    (st.documents.getD i default, (bm25Scores st query).getD i 0))

/-- Sparse-index states reachable by `add_documents` calls from a fresh
retriever. -/
inductive Reachable : SparseState → Prop
  | init : Reachable init
  | add_documents (st : SparseState) (docs : List ChunkDoc) :
      Reachable st → Reachable (add_documents st docs)

/-- Number of indexed chunks whose token list contains `t` (the claim's
`df(t)`). -/
def dfSpec (st : SparseState) (t : String) : ℕ :=
  (st.documents.filter (fun d => decide (t ∈ tokenize d.text))).length

end SparseRetriever

/-! ## VectorStore.search (src/src/pipeline/retrieval.py) -/

/-- Dot product of two rows (`np.dot`). -/
def dotList (v w : List ℝ) : ℝ :=
  ((v.zip w).map (fun p => p.1 * p.2)).sum

/-- Euclidean norm `np.linalg.norm`. -/
noncomputable def norm2 (v : List ℝ) : ℝ :=
  Real.sqrt ((v.map (fun x => x * x)).sum)

/-- Row normalization `a / np.linalg.norm(a)`. -/
noncomputable def normalizeVec (v : List ℝ) : List ℝ :=
  v.map (fun x => x / norm2 v)

namespace VectorStore

/-- `VectorStore.search`: empty-store guard, then cosine similarities against
all rows and `np.argsort(similarities)[-k:][::-1]`; each hit is the document
together with its similarity.  Python's `[-k:]` takes the whole list when
`k = 0`. -/
noncomputable def search (embed : String → List ℝ) (st : VectorStore)
    (query : String) (k : ℕ) : List (ChunkDoc × ℝ) :=
  if st.documents.isEmpty || st.embeddings.isNone then []
  else
    let qe := embed query
    let sims := (st.embeddings.getD []).map (fun r => dotList (normalizeVec qe) (normalizeVec r))
    let asc := argsortAsc sims
    let top := if k = 0 then asc.reverse else asc.reverse.take k
    top.map (fun i => (st.documents.getD i default, sims.getD i 0))

end VectorStore

/-! ## HybridRetriever (src/src/pipeline/retrieval.py) -/

/-- One RRF dict entry: text key, the first hit stored under that key, and
the accumulated fused score. -/
abbrev RrfEntry : Type := String × (ChunkDoc × ℝ) × ℚ

/-- The two dict operations of the fusion loop combined: create the entry
with score 0 on first sight of a key, then add the contribution; an existing
key keeps its position and stored hit. -/
def dictAdd : List RrfEntry → String → ChunkDoc × ℝ → ℚ → List RrfEntry
  | [], key, doc, c => [(key, doc, c)]
  | (k, p, s) :: rest, key, doc, c =>
    if k = key then (k, p, s + c) :: rest
    else (k, p, s) :: dictAdd rest key doc c

/-- One ranked list folded into the RRF dict: rank `i` (0-based) contributes
`1.0 / (rrf_k + rank + 1)` under the hit's text key. -/
def rrfFold (start : List RrfEntry) (hits : List (ChunkDoc × ℝ)) (rrfk : ℕ) :
    List RrfEntry :=
  hits.enum.foldl
    (fun acc p => dictAdd acc p.2.1.text p.2 (1 / ((rrfk : ℚ) + (p.1 : ℚ) + 1)))
    start

/-- Fusion tail of `HybridRetriever.retrieve`: fold both lists into the dict,
stable-sort the entries by fused score descending (`sorted(...,
reverse=True)`), return the top-`k` hits. -/
def rrfFuse (ds ss : List (ChunkDoc × ℝ)) (k rrfk : ℕ) : List (ChunkDoc × ℝ) :=
  let d := rrfFold (rrfFold [] ds rrfk) ss rrfk
  let sorted := List.insertionSort (fun a b : RrfEntry => b.2.2 ≤ a.2.2) d
  (sorted.take k).map (fun e => e.2.1)

/-- State of `HybridRetriever`: the shared dense store and its own sparse
retriever. -/
structure HybridState where
  vector_store : VectorStore := {}
  sparse_retriever : SparseState := {}

namespace HybridRetriever

/-- `HybridRetriever.retrieve`: ask the dense store for `k*2` and the sparse
index for `k*2` candidates, then fuse with RRF (default `rrf_k = 60`) and
keep the top `k`. -/
noncomputable def retrieve (embed : String → List ℝ) (st : HybridState)
    (query : String) (k : ℕ) (rrfk : ℕ) : List (ChunkDoc × ℝ) :=
  rrfFuse (VectorStore.search embed st.vector_store query (k * 2))
    (SparseRetriever.search st.sparse_retriever query (k * 2)) k rrfk

end HybridRetriever

/-- Rank contribution of one list in the specification's words: `1 /
(rrf_k + rank_in_list)` at the 1-based rank of the chunk's text, `0` when the
text is absent from the list. -/
def rankContrib (l : List (ChunkDoc × ℝ)) (rrfk : ℕ) (t : String) : ℚ :=
  match (l.map (fun h => h.1.text)).findIdx? (fun s => decide (s = t)) with
  | some i => 1 / ((rrfk : ℚ) + ((i : ℚ) + 1))
  | none => 0

/-- Fused RRF score in the specification's words: sum of the two lists'
rank contributions. -/
def rrfSpecScore (ds ss : List (ChunkDoc × ℝ)) (rrfk : ℕ) (t : String) : ℚ :=
  rankContrib ds rrfk t + rankContrib ss rrfk t

/-! ## Spec-side definitions and concrete instances used to settle claims -/

/-- Heuristic recommendation in the specification's words:
`final = 0.6·sentiment_score + 0.4·technical_score`, `BUY` above `0.3`,
`SELL` below `-0.3`, else `HOLD`. -/
def c6SpecRecommendation (s t : ℚ) : String :=
  let final := 6/10 * s + 4/10 * t
  if final > 3/10 then "BUY" else if final < -(3/10) then "SELL" else "HOLD"

/-- Embedder returning an empty vector, used to instantiate the pipeline at
concrete inputs (the claims under test never inspect embedding values). -/
def emptyEmbed : String → List ℝ := fun _ => []

/-- Concrete article used against the ingest-idempotence claim. -/
def c2Article : Article :=
  { id := "t1", title := "A", content := "B.", source := "S", url := "u", published_at := "p" }

/-- Concrete empty-content article used against the empty-body claim. -/
def c7Article : Article :=
  { id := "t2", title := "A", content := "", source := "S", url := "u", published_at := "p" }

/-- Market state after one update of AAPL stamped 2024-01-02. -/
def c8State1 : MarketState :=
  MarketState.update MarketState.init "AAPL" (1/2) "2024-01-02T00:00:00"

/-- Market state after a second update of AAPL stamped with the older time
2024-01-01. -/
def c8State2 : MarketState :=
  MarketState.update c8State1 "AAPL" (3/10) "2024-01-01T00:00:00"

/-! ## Auxiliary definitions used by the theorems: invariants, spec-side
predicates and concrete instances -/

/-- The C9 invariant: row count matches document count and the matrix is
absent exactly on the empty store. -/
def vsInv (st : VectorStore) : Prop :=
  VectorStore.rows st.embeddings = st.documents.length ∧
    (st.embeddings = none ↔ st.documents = [])

/-- Value stored under a key, zero when absent (`Counter` read semantics). -/
def SparseRetriever.valAt (t : String) (l : List (String × ℕ)) : ℕ :=
  (lookupKey t l).getD 0

/-- The structural invariant of the sparse index that `add_documents`
maintains. -/
def SparseRetriever.sparseInv (st : SparseState) : Prop :=
  st.k1 = 3/2 ∧ st.b = 3/4 ∧
  st.doc_freqs = st.documents.map (fun d => counter (tokenize d.text)) ∧
  st.corpus_size = st.documents.length ∧
  st.idf = calculate_idf st.doc_freqs st.corpus_size

/-- Sparse index holding exactly one chunk with text `"apple"`, used as the
concrete C4 instance. -/
noncomputable def c4State : SparseState :=
  SparseRetriever.add_documents SparseRetriever.init [{ text := "apple" }]

/-- Sparse index holding two chunks with the same text `"apple"`, used as the
concrete C5 instance. -/
noncomputable def c5State : SparseState :=
  SparseRetriever.add_documents SparseRetriever.init
    [{ text := "apple", article_id := "0" }, { text := "apple", article_id := "1" }]

/-- The BM25 score both `"apple"` chunks receive for the query `"apple"` in
`c5State`. -/
noncomputable def c5E : ℝ := Real.log (1 + 2⁻¹ / (2 + 2⁻¹)) * (3/2 + 1) / (1 + 3/2)

/-- The ordering asserted by the claim, in the specification's words: only
strictly positive scores, descending, ties broken by insertion order
(smaller index first). -/
def c5ClaimedOrder (st : SparseState) (q : String) (k : ℕ) : Prop :=
  (∀ i ∈ SparseRetriever.searchIdx st q k,
    (0:ℝ) < (SparseRetriever.bm25Scores st q).getD i 0) ∧
  (SparseRetriever.searchIdx st q k).Pairwise (fun i j =>
    (SparseRetriever.bm25Scores st q).getD j 0 < (SparseRetriever.bm25Scores st q).getD i 0 ∨
    ((SparseRetriever.bm25Scores st q).getD i 0 = (SparseRetriever.bm25Scores st q).getD j 0 ∧
      i < j))

/-- Fused score stored in the RRF dict under a text key, zero when absent. -/
def entryScore (d : List RrfEntry) (t : String) : ℚ :=
  ((lookupKey t d).map Prod.snd).getD 0

/-- Sum of the code's rank contributions of a ranked list to a text key,
with ranks counted from `n`. -/
def sumContrib (rrfk : ℕ) : ℕ → String → List (ChunkDoc × ℝ) → ℚ
  | _, _, [] => 0
  | n, t, h :: rest =>
    (if h.1.text = t then 1 / ((rrfk : ℚ) + (n : ℚ) + 1) else 0) +
      sumContrib rrfk (n + 1) t rest

instance : IsTotal RrfEntry (fun a b => b.2.2 ≤ a.2.2) :=
  ⟨fun a b => le_total b.2.2 a.2.2⟩

instance : IsTrans RrfEntry (fun a b => b.2.2 ≤ a.2.2) :=
  ⟨fun _ _ _ hab hbc => le_trans hbc hab⟩

/-! ## Theorems -/

/-! ### C6 — heuristic fallback of the decision agent -/

/-- C6: whenever the decision adapter fails, `DecisionAgent.decide` returns
the deterministic heuristic verdict: `final = 0.6·sentiment_score +
0.4·technical_score`, `BUY` above `0.3`, `SELL` below `-0.3`, else `HOLD`,
with confidence `0.5` and `primary_driver = "Heuristic"`; in particular
sentiment `0.5` and technical `0.2` yield `BUY`. -/
theorem claim_C6_fallback :
    ∀ (sentiment : SentimentData) (technical : TechnicalData) (risk : RiskData),
      DecisionAgent.decide none sentiment technical risk =
        { recommendation :=
            c6SpecRecommendation (sentiment.sentiment_score.getD 0)
              (technical.technical_score.getD 0)
          confidence := 1/2
          reasoning := "Fallback logic used due to agent error."
          primary_driver := "Heuristic" } ∧
      (DecisionAgent.decide none ⟨some (1/2)⟩ ⟨some (1/5)⟩ ⟨none⟩).recommendation = "BUY" ∧
      (DecisionAgent.decide none ⟨some (1/2)⟩ ⟨some (1/5)⟩ ⟨none⟩).confidence = 1/2 ∧
      (DecisionAgent.decide none ⟨some (1/2)⟩ ⟨some (1/5)⟩ ⟨none⟩).primary_driver = "Heuristic" := by
  intro sentiment technical risk
  have hc : ∀ s' t' : ℚ, s' * (6/10) + t' * (4/10) = 6/10 * s' + 4/10 * t' := fun _ _ => by ring
  have hbuy : (3 : ℚ)/10 < 1/2 * (6/10) + 1/5 * (4/10) := by norm_num
  refine ⟨?_, ?_, ?_, ?_⟩
  · simp only [DecisionAgent.decide, DecisionAgent.heuristic_fallback, c6SpecRecommendation,
      hc, gt_iff_lt]
  · norm_num [DecisionAgent.decide, DecisionAgent.heuristic_fallback]
  · simp [DecisionAgent.decide, DecisionAgent.heuristic_fallback]
  · simp [DecisionAgent.decide, DecisionAgent.heuristic_fallback]

/-! ### C9 — dense store shape invariant -/

theorem vsInv_init : vsInv VectorStore.init := by
  constructor
  · rfl
  · simp [VectorStore.init]

theorem vsInv_add_document (embed : String → List ℝ) (st : VectorStore)
    (doc : ChunkDoc) (embedding : Option (List ℝ)) (h : vsInv st) :
    vsInv (VectorStore.add_document embed st doc embedding) := by
  obtain ⟨h1, h2⟩ := h
  cases hemb : st.embeddings with
  | none =>
    have hdoc : st.documents = [] := h2.mp hemb
    constructor
    · simp [VectorStore.add_document, hemb, hdoc, VectorStore.rows]
    · simp [VectorStore.add_document, hemb]
  | some m =>
    rw [hemb] at h1
    simp only [VectorStore.rows] at h1
    constructor
    · simp [VectorStore.add_document, hemb, VectorStore.rows, h1]
    · simp [VectorStore.add_document, hemb]

theorem vsInv_foldl (embed : String → List ℝ) (l : List (ChunkDoc × List ℝ)) :
    ∀ st : VectorStore, vsInv st →
      vsInv (l.foldl (fun s p => VectorStore.add_document embed s p.1 (some p.2)) st) := by
  induction l with
  | nil => intro st h; exact h
  | cons p rest ih =>
    intro st h
    exact ih _ (vsInv_add_document embed st p.1 (some p.2) h)

theorem vsInv_add_documents (embed : String → List ℝ) (st : VectorStore)
    (docs : List ChunkDoc) (h : vsInv st) :
    vsInv (VectorStore.add_documents embed st docs) := by
  unfold VectorStore.add_documents
  by_cases hd : docs = []
  · rw [if_pos hd]; exact h
  · rw [if_neg hd]
    exact vsInv_foldl embed _ st h

/-- C9: at every reachable state of the dense vector store, the number of
stored documents equals the number of rows of the embedding matrix, and the
matrix is `None` exactly when the document list is empty. -/
theorem claim_C9_store_shape (st : VectorStore) (h : VectorStore.Reachable st) :
    VectorStore.rows st.embeddings = st.documents.length ∧
      (st.embeddings = none ↔ st.documents = []) := by
  have : vsInv st := by
    induction h with
    | init => exact vsInv_init
    | add_document embed st doc embedding _ ih => exact vsInv_add_document embed st doc embedding ih
    | add_documents embed st docs _ ih => exact vsInv_add_documents embed st docs ih
    | clear st _ => exact ⟨rfl, by simp [VectorStore.clear]⟩
  exact this

/-- Witness for C9 at a concrete reachable state: one document added to the
fresh store. -/
theorem claim_C9_store_shape_witness :
    VectorStore.rows (VectorStore.add_document emptyEmbed VectorStore.init
        { text := "w" } none).embeddings =
      (VectorStore.add_document emptyEmbed VectorStore.init { text := "w" } none).documents.length ∧
      ((VectorStore.add_document emptyEmbed VectorStore.init { text := "w" } none).embeddings = none ↔
        (VectorStore.add_document emptyEmbed VectorStore.init { text := "w" } none).documents = []) :=
  claim_C9_store_shape _
    (VectorStore.Reachable.add_document emptyEmbed VectorStore.init { text := "w" } none
      VectorStore.Reachable.init)

/-! ### C10 — searching an empty index is a safe no-op -/

/-- C10: searching an empty dense store or an empty sparse index returns the
empty list, for every embedder, query and `k` (both searches are pure, so no
state changes; the dense guard fires before the embedder is called, which the
quantification over `embed` makes precise). -/
theorem claim_C10_empty_search :
    ∀ (embed : String → List ℝ) (vst : VectorStore) (sst : SparseState)
      (q : String) (k : ℕ),
      (vst.documents = [] → VectorStore.search embed vst q k = []) ∧
      (sst.documents = [] → SparseRetriever.search sst q k = []) := by
  intro embed vst sst q k
  constructor
  · intro h
    unfold VectorStore.search
    rw [h]
    simp
  · intro h
    unfold SparseRetriever.search SparseRetriever.searchIdx
    rw [if_pos h]
    simp

/-- Witness for C10 at the two fresh (empty) index states. -/
theorem claim_C10_empty_search_witness :
    VectorStore.search emptyEmbed VectorStore.init "AAPL stock news" 5 = [] ∧
      SparseRetriever.search SparseRetriever.init "AAPL stock news" 5 = [] :=
  ⟨(claim_C10_empty_search emptyEmbed VectorStore.init SparseRetriever.init
      "AAPL stock news" 5).1 rfl,
    (claim_C10_empty_search emptyEmbed VectorStore.init SparseRetriever.init
      "AAPL stock news" 5).2 rfl⟩

/-! ### C8 — subject state is overwritten, not timestamp-guarded -/

theorem lookupKey_setKey_self {β : Type} (t : String) (v : β) :
    ∀ l : List (String × β), lookupKey t (setKey l t v) = some v := by
  intro l
  induction l with
  | nil => simp [setKey, lookupKey]
  | cons p rest ih =>
    obtain ⟨k, w⟩ := p
    by_cases hk : k = t
    · simp [setKey, hk, lookupKey]
    · simp [setKey, hk, lookupKey, ih]

/-- C8 (counterexample): the claim says an update whose computed timestamp is
older than the stored one is rejected with the state unchanged.  Updating
AAPL stamped 2024-01-02 and then again stamped with the older 2024-01-01,
the code stores the older stamp and changes the state. -/
theorem claim_C8_counterexample :
    lookupKey "AAPL" c8State1.last_updated = some "2024-01-02T00:00:00" ∧
    ("2024-01-01T00:00:00" : String) < "2024-01-02T00:00:00" ∧
    lookupKey "AAPL" c8State2.last_updated = some "2024-01-01T00:00:00" ∧
    c8State2.last_updated ≠ c8State1.last_updated := by
  refine ⟨by decide, ?_, by decide, by decide⟩
  rw [String.lt_iff_toList_lt]
  decide

/-- C8 (amended): `MarketState.update` never rejects an update; it always
overwrites the subject's score and stamps the subject with the supplied
current wall-clock time.  Consequently `last_updated` is non-decreasing for a
subject exactly on the assumption that successive wall-clock readings are
non-decreasing. -/
theorem claim_C8_amended :
    ∀ (st : MarketState) (t : String) (v : ℚ) (now u : String),
      lookupKey t (MarketState.update st t v now).last_updated = some now ∧
      lookupKey t (MarketState.update st t v now).sentiments = some v ∧
      (lookupKey t st.last_updated = some u → u ≤ now →
        ∀ w, lookupKey t (MarketState.update st t v now).last_updated = some w → u ≤ w) := by
  intro st t v now u
  refine ⟨lookupKey_setKey_self t now st.last_updated,
    lookupKey_setKey_self t v st.sentiments, ?_⟩
  intro _ hle w hw
  have h1 : lookupKey t (MarketState.update st t v now).last_updated = some now :=
    lookupKey_setKey_self t now st.last_updated
  rw [h1] at hw
  cases hw
  exact hle

/-- Witness for C8 (amended) at a concrete state holding the older stamp. -/
theorem claim_C8_amended_witness :
    ("2024-01-01T00:00:00" : String) ≤ "2024-01-02T00:00:00" :=
  (claim_C8_amended c8State2 "AAPL" (7/10) "2024-01-02T00:00:00" "2024-01-01T00:00:00").2.2
    (by decide) (by rw [String.le_iff_toList_le]; decide) "2024-01-02T00:00:00"
    (by decide)

/-! ### C2 — ingest is not idempotent -/

theorem add_document_documents_length (embed : String → List ℝ) (st : VectorStore)
    (doc : ChunkDoc) (embedding : Option (List ℝ)) :
    (VectorStore.add_document embed st doc embedding).documents.length =
      st.documents.length + 1 := by
  simp [VectorStore.add_document]

theorem foldl_add_document_documents_length (embed : String → List ℝ)
    (l : List (ChunkDoc × List ℝ)) :
    ∀ st : VectorStore,
      ((l.foldl (fun s p => VectorStore.add_document embed s p.1 (some p.2)) st).documents.length)
        = st.documents.length + l.length := by
  induction l with
  | nil => intro st; simp
  | cons p rest ih =>
    intro st
    rw [List.foldl_cons, ih, add_document_documents_length, List.length_cons]
    omega

theorem add_documents_documents_length (embed : String → List ℝ) (st : VectorStore)
    (docs : List ChunkDoc) :
    (VectorStore.add_documents embed st docs).documents.length =
      st.documents.length + docs.length := by
  unfold VectorStore.add_documents
  by_cases hd : docs = []
  · rw [if_pos hd, hd]; simp
  · rw [if_neg hd, foldl_add_document_documents_length]
    congr 1
    rw [List.length_zip, List.length_map]
    exact Nat.min_self _

theorem ingest_article_count (embed : String → List ℝ) (st : VectorStore) (a : Article) :
    (RAGPipeline.ingest_article embed st a).2 =
      (ChunkProcessor.chunk_text 512 (a.title ++ ". " ++ a.content)).length := rfl

theorem ingest_article_documents_length (embed : String → List ℝ) (st : VectorStore)
    (a : Article) :
    (RAGPipeline.ingest_article embed st a).1.documents.length =
      st.documents.length + (RAGPipeline.ingest_article embed st a).2 := by
  unfold RAGPipeline.ingest_article
  simp only
  rw [add_documents_documents_length]
  congr 1
  rw [List.length_map, List.enum_length]

/-- C2 (counterexample): against the claim that a second ingestion of the same
article adds zero chunks, a concrete article produces one chunk on the first
ingestion and one more on the second (the path has no deduplication). -/
theorem claim_C2_counterexample :
    (RAGPipeline.ingest_article emptyEmbed VectorStore.init c2Article).2 = 1 ∧
    (RAGPipeline.ingest_article emptyEmbed VectorStore.init c2Article).1.documents.length = 1 ∧
    (RAGPipeline.ingest_article emptyEmbed
        (RAGPipeline.ingest_article emptyEmbed VectorStore.init c2Article).1
        c2Article).1.documents.length = 2 := by
  refine ⟨by decide, ?_, ?_⟩
  · rw [ingest_article_documents_length]
    decide
  · rw [ingest_article_documents_length, ingest_article_documents_length]
    decide

/-- C2 (amended): the ingest path deduplicates nothing — ingesting the same
article twice adds the same number of chunks both times, so the chunk count
grows by twice the per-ingestion chunk count rather than once. -/
theorem claim_C2_amended :
    ∀ (embed : String → List ℝ) (st : VectorStore) (a : Article),
      (RAGPipeline.ingest_article embed (RAGPipeline.ingest_article embed st a).1 a).2 =
        (RAGPipeline.ingest_article embed st a).2 ∧
      (RAGPipeline.ingest_article embed st a).1.documents.length =
        st.documents.length + (RAGPipeline.ingest_article embed st a).2 ∧
      (RAGPipeline.ingest_article embed
          (RAGPipeline.ingest_article embed st a).1 a).1.documents.length =
        st.documents.length + 2 * (RAGPipeline.ingest_article embed st a).2 := by
  intro embed st a
  refine ⟨rfl, ingest_article_documents_length embed st a, ?_⟩
  rw [ingest_article_documents_length, ingest_article_documents_length]
  have h2 : (RAGPipeline.ingest_article embed (RAGPipeline.ingest_article embed st a).1 a).2 =
      (RAGPipeline.ingest_article embed st a).2 := rfl
  rw [h2]
  ring

/-! ### C7 — empty-content articles still produce a chunk -/

namespace ChunkProcessor

theorem trimChars_ne_nil (l : List Char) (c : Char) (hc : c ∈ l)
    (hw : c.isWhitespace = false) :
    ((l.dropWhile Char.isWhitespace).reverse.dropWhile Char.isWhitespace).reverse ≠ [] := by
  intro h
  have h2 : (l.dropWhile Char.isWhitespace).reverse.dropWhile Char.isWhitespace = [] := by
    simpa using congrArg List.reverse h
  have hc2 : c ∈ l.takeWhile Char.isWhitespace ++ l.dropWhile Char.isWhitespace := by
    rw [List.takeWhile_append_dropWhile]
    exact hc
  have hcd : c ∈ l.dropWhile Char.isWhitespace := by
    rcases List.mem_append.mp hc2 with h1 | h1
    · exact absurd (List.mem_takeWhile_imp h1) (by simp [hw])
    · exact h1
  have h3 := List.dropWhile_eq_nil_iff.mp h2 c (List.mem_reverse.mpr hcd)
  rw [hw] at h3
  cases h3

theorem pyStrip_ne_empty (s : String) (c : Char) (hc : c ∈ s.data)
    (hw : c.isWhitespace = false) : pyStrip s ≠ "" := by
  intro h
  exact trimChars_ne_nil s.data c hc hw (congrArg String.data h)

theorem splitSent_covers :
    ∀ (l : List Char) (inSep : Bool) (acc : List Char) (c : Char),
      c.isWhitespace = false → (c ∈ l ∨ c ∈ acc) →
      ∃ p ∈ splitSentChars l inSep acc, c ∈ p.data := by
  intro l
  induction l with
  | nil =>
    intro inSep acc c _ hmem
    rcases hmem with hmem | hmem
    · cases hmem
    · exact ⟨String.mk acc.reverse, List.mem_singleton.mpr rfl, List.mem_reverse.mpr hmem⟩
  | cons d cs ih =>
    intro inSep acc c hw hmem
    show ∃ p ∈ (if inSep && d.isWhitespace then splitSentChars cs true acc
      else if isTerminator d && (match cs with | [] => false | e :: _ => e.isWhitespace) then
        String.mk (d :: acc).reverse :: splitSentChars cs true []
      else splitSentChars cs false (d :: acc)), c ∈ p.data
    by_cases h1 : (inSep && d.isWhitespace) = true
    · rw [if_pos h1]
      have hcd : c ≠ d := by
        intro hcd
        subst hcd
        rw [Bool.and_eq_true] at h1
        rw [hw] at h1
        cases h1.2
      apply ih true acc c hw
      rcases hmem with hmem | hmem
      · rcases List.mem_cons.mp hmem with rfl | hmem
        · exact absurd rfl hcd
        · exact Or.inl hmem
      · exact Or.inr hmem
    · rw [if_neg h1]
      cases cs with
      | nil =>
        rw [show (isTerminator d &&
          (match ([] : List Char) with | [] => false | e :: _ => e.isWhitespace)) =
            false from by simp]
        rw [if_neg (by simp)]
        apply ih false (d :: acc) c hw
        rcases hmem with hmem | hmem
        · rcases List.mem_cons.mp hmem with rfl | hmem
          · exact Or.inr (List.mem_cons_self _ _)
          · cases hmem
        · exact Or.inr (List.mem_cons_of_mem _ hmem)
      | cons e cs' =>
        rw [show (isTerminator d &&
          (match e :: cs' with | [] => false | f :: _ => f.isWhitespace)) =
            (isTerminator d && e.isWhitespace) from rfl]
        by_cases h2 : (isTerminator d && e.isWhitespace) = true
        · rw [if_pos h2]
          rcases hmem with hmem | hmem
          · rcases List.mem_cons.mp hmem with rfl | hmem
            · exact ⟨String.mk (c :: acc).reverse, List.mem_cons_self _ _,
                List.mem_reverse.mpr (List.mem_cons_self _ _)⟩
            · obtain ⟨p, hp, hcp⟩ := ih true [] c hw (Or.inl hmem)
              exact ⟨p, List.mem_cons_of_mem _ hp, hcp⟩
          · exact ⟨String.mk (d :: acc).reverse, List.mem_cons_self _ _,
              List.mem_reverse.mpr (List.mem_cons_of_mem _ hmem)⟩
        · rw [if_neg h2]
          apply ih false (d :: acc) c hw
          rcases hmem with hmem | hmem
          · rcases List.mem_cons.mp hmem with rfl | hmem
            · exact Or.inr (List.mem_cons_self _ _)
            · exact Or.inl hmem
          · exact Or.inr (List.mem_cons_of_mem _ hmem)

theorem split_sentences_ne_nil (text : String) (c : Char) (hc : c ∈ text.data)
    (hw : c.isWhitespace = false) : split_sentences text ≠ [] := by
  obtain ⟨p, hp, hcp⟩ := splitSent_covers text.data false [] c hw (Or.inl hc)
  have hps : pyStrip p ∈ split_sentences text := by
    unfold split_sentences
    refine List.mem_filter.mpr ⟨List.mem_map.mpr ⟨p, hp, rfl⟩, ?_⟩
    simp only [ne_eq, decide_not, Bool.not_eq_eq_eq_not, Bool.not_true, decide_eq_false_iff_not]
    exact pyStrip_ne_empty p c hcp hw
  intro h
  rw [h] at hps
  cases hps

theorem packFold_cur_ne_nil (m : ℕ) :
    ∀ (l : List String) (st : List String × List String × ℕ),
      l ≠ [] → ((l.foldl (packStep m) st).2.1) ≠ [] := by
  intro l
  induction l with
  | nil => intro st h; exact absurd rfl h
  | cons s rest ih =>
    intro st _
    rw [List.foldl_cons]
    by_cases hr : rest = []
    · subst hr
      obtain ⟨chs, cur, len⟩ := st
      show (packStep m (chs, cur, len) s).2.1 ≠ []
      rw [show packStep m (chs, cur, len) s =
        (if m < len + (pySplit s).length then
          ((if cur ≠ [] then chs ++ [joinSpace cur] else chs), [s], (pySplit s).length)
        else (chs, cur ++ [s], len + (pySplit s).length)) from rfl]
      by_cases hover : m < len + (pySplit s).length
      · rw [if_pos hover]
        simp
      · rw [if_neg hover]
        simp
    · exact ih _ hr

theorem chunk_text_ne_nil (text : String) (c : Char) (hc : c ∈ text.data)
    (hw : c.isWhitespace = false) (hne : text ≠ "") :
    chunk_text 512 text ≠ [] := by
  unfold chunk_text
  rw [if_neg (by push_neg; exact ⟨hne, pyStrip_ne_empty text c hc hw⟩)]
  have hsent := split_sentences_ne_nil text c hc hw
  have hcur := packFold_cur_ne_nil 512 (split_sentences text) ([], [], 0) hsent
  rw [if_pos hcur]
  simp

theorem title_dot_chunks_pos (title : String) :
    0 < (chunk_text 512 (title ++ ". ")).length := by
  have hc : '.' ∈ (title ++ ". ").data := by
    rw [String.data_append]
    exact List.mem_append.mpr (Or.inr (by decide))
  have hne : (title ++ ". ") ≠ "" := by
    intro h
    have h2 := congrArg String.data h
    rw [String.data_append] at h2
    exact absurd (List.append_eq_nil.mp h2).2 (by decide)
  exact List.length_pos.mpr (chunk_text_ne_nil (title ++ ". ") '.' hc (by decide) hne)

end ChunkProcessor

/-- C7 (counterexample): the claim says an article with empty content yields
zero chunks and leaves the store unchanged; the code prepends `title + ". "`,
so a concrete empty-content article yields one chunk and grows the store. -/
theorem claim_C7_counterexample :
    (RAGPipeline.ingest_article emptyEmbed VectorStore.init c7Article).2 = 1 ∧
    (RAGPipeline.ingest_article emptyEmbed VectorStore.init c7Article).1.documents.length ≠
      VectorStore.init.documents.length := by
  constructor
  · decide
  · rw [ingest_article_documents_length]
    decide

/-- C7 (amended): `chunk_text` itself maps empty text to zero chunks, but
`ingest_article` chunks `title + ". "` when the content is empty, so an
empty-content article adds exactly the chunks of that string — a strictly
positive number of chunks for every title, never zero. -/
theorem claim_C7_amended :
    ∀ (embed : String → List ℝ) (st : VectorStore) (a : Article),
      a.content = "" →
      (RAGPipeline.ingest_article embed st a).2 =
        (ChunkProcessor.chunk_text 512 (a.title ++ ". ")).length ∧
      (RAGPipeline.ingest_article embed st a).1.documents.length =
        st.documents.length + (ChunkProcessor.chunk_text 512 (a.title ++ ". ")).length ∧
      0 < (RAGPipeline.ingest_article embed st a).2 ∧
      ChunkProcessor.chunk_text 512 "" = [] := by
  intro embed st a h
  have happ : a.title ++ ". " ++ a.content = a.title ++ ". " := by
    rw [h]
    exact String.append_empty _
  refine ⟨?_, ?_, ?_, rfl⟩
  · rw [ingest_article_count, happ]
  · rw [ingest_article_documents_length, ingest_article_count, happ]
  · rw [ingest_article_count, happ]
    exact ChunkProcessor.title_dot_chunks_pos a.title

/-- Witness for C7 (amended) at the concrete empty-content article. -/
theorem claim_C7_amended_witness :
    (RAGPipeline.ingest_article emptyEmbed VectorStore.init c7Article).2 =
      (ChunkProcessor.chunk_text 512 (c7Article.title ++ ". ")).length ∧
    (RAGPipeline.ingest_article emptyEmbed VectorStore.init c7Article).1.documents.length =
      VectorStore.init.documents.length +
        (ChunkProcessor.chunk_text 512 (c7Article.title ++ ". ")).length ∧
    0 < (RAGPipeline.ingest_article emptyEmbed VectorStore.init c7Article).2 ∧
    ChunkProcessor.chunk_text 512 "" = [] :=
  claim_C7_amended emptyEmbed VectorStore.init c7Article rfl

/-! ### C1 — aggregator deduplication across invocations -/

namespace NewsAggregator

theorem dedupLoop_spec :
    ∀ (l : List Article) (seen : List String),
      ((dedupLoop seen l).1.map generate_id).Nodup ∧
      (∀ a ∈ (dedupLoop seen l).1, generate_id a ∉ seen) ∧
      (∀ s ∈ seen, s ∈ (dedupLoop seen l).2) ∧
      (∀ a ∈ (dedupLoop seen l).1, generate_id a ∈ (dedupLoop seen l).2) := by
  intro l
  induction l with
  | nil =>
    intro seen
    refine ⟨by simp [dedupLoop], by simp [dedupLoop], ?_, by simp [dedupLoop]⟩
    intro s hs
    simpa [dedupLoop] using hs
  | cons a rest ih =>
    intro seen
    by_cases hmem : generate_id a ∈ seen
    · have hd : dedupLoop seen (a :: rest) = dedupLoop seen rest := by
        simp [dedupLoop, hmem]
      rw [hd]
      exact ih seen
    · have hd : dedupLoop seen (a :: rest) =
          ((a :: (dedupLoop (generate_id a :: seen) rest).1),
            (dedupLoop (generate_id a :: seen) rest).2) := by
        simp [dedupLoop, hmem]
      obtain ⟨ih1, ih2, ih3, ih4⟩ := ih (generate_id a :: seen)
      rw [hd]
      refine ⟨?_, ?_, ?_, ?_⟩
      · simp only [List.map_cons, List.nodup_cons]
        refine ⟨?_, ih1⟩
        intro hcontra
        obtain ⟨b, hb, hgb⟩ := List.mem_map.mp hcontra
        exact (ih2 b hb) (hgb ▸ List.mem_cons_self _ _)
      · intro b hb
        rcases List.mem_cons.mp hb with rfl | hb
        · exact hmem
        · intro hcontra
          exact (ih2 b hb) (List.mem_cons_of_mem _ hcontra)
      · intro s hs
        exact ih3 s (List.mem_cons_of_mem _ hs)
      · intro b hb
        rcases List.mem_cons.mp hb with rfl | hb
        · exact ih3 _ (List.mem_cons_self _ _)
        · exact ih4 b hb

theorem runFetches_spec :
    ∀ (batches : List (List Article)) (seen : List String),
      (((runFetches seen batches).1.flatten).map generate_id).Nodup ∧
      (∀ a ∈ (runFetches seen batches).1.flatten, generate_id a ∉ seen) := by
  intro batches
  induction batches with
  | nil => intro seen; simp [runFetches]
  | cons b bs ih =>
    intro seen
    obtain ⟨d1, d2, d3, d4⟩ := dedupLoop_spec b seen
    obtain ⟨ih1, ih2⟩ := ih (fetch_all seen b).2
    have hjoin : (runFetches seen (b :: bs)).1.flatten =
        (fetch_all seen b).1 ++ (runFetches (fetch_all seen b).2 bs).1.flatten := by
      simp [runFetches]
    rw [hjoin]
    constructor
    · rw [List.map_append, List.nodup_append]
      refine ⟨d1, ih1, ?_⟩
      intro x hx hx'
      obtain ⟨p, hp, hpx⟩ := List.mem_map.mp hx
      obtain ⟨q, hq, hqx⟩ := List.mem_map.mp hx'
      have hin : generate_id p ∈ (fetch_all seen b).2 := d4 p hp
      have hnotin : generate_id q ∉ (fetch_all seen b).2 := ih2 q hq
      rw [hpx] at hin
      rw [hqx] at hnotin
      exact hnotin hin
    · intro a ha
      rcases List.mem_append.mp ha with ha | ha
      · exact d2 a ha
      · intro hcontra
        exact (ih2 a ha) (d3 _ hcontra)

end NewsAggregator

/-- C1: across any sequence of `fetch_all` invocations from a fresh
aggregator, the union of all returned article lists contains no two articles
sharing a fingerprint — duplicates within one invocation and across
invocations are dropped through the persistent seen-set. -/
theorem claim_C1_dedup (batches : List (List Article)) :
    (((NewsAggregator.runFetches NewsAggregator.initSeen batches).1.flatten).map
        NewsAggregator.generate_id).Nodup :=
  (NewsAggregator.runFetches_spec batches NewsAggregator.initSeen).1

/-! ### C4 — stored IDF values -/

namespace SparseRetriever

theorem lookupKey_eq_none_iff {β : Type} (t : String) :
    ∀ l : List (String × β), lookupKey t l = none ↔ t ∉ l.map Prod.fst := by
  intro l
  induction l with
  | nil => simp [lookupKey]
  | cons p rest ih =>
    obtain ⟨k, v⟩ := p
    by_cases hk : k = t
    · simp [lookupKey, hk]
    · simp only [lookupKey, if_neg hk, ih, List.map_cons, List.mem_cons]
      constructor
      · rintro h (rfl | hmem)
        · exact hk rfl
        · exact h hmem
      · intro h hmem
        exact h (Or.inr hmem)

theorem lookupKey_append {β : Type} (t : String) :
    ∀ l1 l2 : List (String × β),
      lookupKey t (l1 ++ l2) =
        match lookupKey t l1 with
        | some v => some v
        | none => lookupKey t l2 := by
  intro l1 l2
  induction l1 with
  | nil => simp [lookupKey]
  | cons p rest ih =>
    obtain ⟨k, v⟩ := p
    by_cases hk : k = t
    · simp [lookupKey, hk]
    · simp [lookupKey, hk, ih]

theorem lookupKey_setKey_other {β : Type} (s t : String) (v : β) (hst : ¬ s = t) :
    ∀ l : List (String × β), lookupKey t (setKey l s v) = lookupKey t l := by
  intro l
  induction l with
  | nil => simp [setKey, lookupKey, hst]
  | cons p rest ih =>
    obtain ⟨k, w⟩ := p
    by_cases hks : k = s
    · subst hks
      simp [setKey, lookupKey, hst]
    · by_cases hkt : k = t
      · subst hkt
        have hts : ¬ k = s := hks
        simp [setKey, lookupKey, hts]
      · simp [setKey, lookupKey, hks, hkt, ih]

theorem valAt_bump (acc : List (String × ℕ)) (s t : String) :
    valAt t (bump acc s) = valAt t acc + (if s = t then 1 else 0) := by
  unfold bump valAt
  by_cases hst : s = t
  · subst hst
    rw [lookupKey_setKey_self]
    simp
  · rw [lookupKey_setKey_other s t _ hst]
    simp [hst]

theorem valAt_foldl_bump (ks : List String) :
    ∀ (acc : List (String × ℕ)) (t : String),
      valAt t (ks.foldl bump acc) = valAt t acc + ks.count t := by
  induction ks with
  | nil => intro acc t; simp
  | cons k ks ih =>
    intro acc t
    rw [List.foldl_cons, ih, valAt_bump, List.count_cons]
    by_cases hk : k = t
    · subst hk
      simp only [if_pos rfl, beq_self_eq_true, if_true]
      omega
    · have hk' : ¬ t = k := fun h => hk h.symm
      simp [hk, hk']

theorem mem_keys_setKey {β : Type} (k t : String) (v : β) :
    ∀ l : List (String × β),
      (t ∈ (setKey l k v).map Prod.fst ↔ t ∈ l.map Prod.fst ∨ t = k) := by
  intro l
  induction l with
  | nil => simp [setKey]
  | cons p rest ih =>
    obtain ⟨k', w⟩ := p
    by_cases hk : k' = k
    · subst hk
      show t ∈ (List.map Prod.fst (if k' = k' then (k', v) :: rest else
        (k', w) :: setKey rest k' v)) ↔ _
      rw [if_pos rfl]
      simp only [List.map_cons, List.mem_cons]
      tauto
    · show t ∈ (List.map Prod.fst (if k' = k then (k', v) :: rest else
        (k', w) :: setKey rest k v)) ↔ _
      rw [if_neg hk]
      simp only [List.map_cons, List.mem_cons, ih]
      tauto

theorem nodup_keys_setKey {β : Type} (k : String) (v : β) :
    ∀ l : List (String × β),
      (l.map Prod.fst).Nodup → ((setKey l k v).map Prod.fst).Nodup := by
  intro l
  induction l with
  | nil => intro _; simp [setKey]
  | cons p rest ih =>
    obtain ⟨k', w⟩ := p
    intro h
    rw [List.map_cons, List.nodup_cons] at h
    by_cases hk : k' = k
    · subst hk
      show (List.map Prod.fst (if k' = k' then (k', v) :: rest else
        (k', w) :: setKey rest k' v)).Nodup
      rw [if_pos rfl]
      simp only [List.map_cons, List.nodup_cons]
      exact h
    · show (List.map Prod.fst (if k' = k then (k', v) :: rest else
        (k', w) :: setKey rest k v)).Nodup
      rw [if_neg hk]
      simp only [List.map_cons, List.nodup_cons]
      refine ⟨?_, ih h.2⟩
      intro hc
      rcases (mem_keys_setKey k k' v rest).mp hc with hc | hc
      · exact h.1 hc
      · exact hk hc

theorem mem_keys_bump (s t : String) (acc : List (String × ℕ)) :
    t ∈ (bump acc s).map Prod.fst ↔ t ∈ acc.map Prod.fst ∨ t = s :=
  mem_keys_setKey s t _ acc

theorem nodup_keys_bump (s : String) (acc : List (String × ℕ))
    (h : (acc.map Prod.fst).Nodup) : ((bump acc s).map Prod.fst).Nodup :=
  nodup_keys_setKey s _ acc h

theorem mem_keys_foldl_bump (ks : List String) :
    ∀ (acc : List (String × ℕ)) (t : String),
      t ∈ ((ks.foldl bump acc).map Prod.fst) ↔ t ∈ acc.map Prod.fst ∨ t ∈ ks := by
  induction ks with
  | nil => intro acc t; simp
  | cons k ks ih =>
    intro acc t
    rw [List.foldl_cons, ih, mem_keys_bump]
    simp only [List.mem_cons]
    tauto

theorem nodup_keys_foldl_bump (ks : List String) :
    ∀ acc : List (String × ℕ),
      (acc.map Prod.fst).Nodup → ((ks.foldl bump acc).map Prod.fst).Nodup := by
  induction ks with
  | nil => intro acc h; exact h
  | cons k ks ih =>
    intro acc h
    exact ih _ (nodup_keys_bump k acc h)

theorem counter_keys_nodup (tokens : List String) :
    ((counter tokens).map Prod.fst).Nodup :=
  nodup_keys_foldl_bump tokens [] (by simp)

theorem mem_keys_counter (tokens : List String) (t : String) :
    t ∈ (counter tokens).map Prod.fst ↔ t ∈ tokens := by
  unfold counter
  rw [mem_keys_foldl_bump]
  simp

theorem lookupKey_of_mem_nodup {β : Type} (t : String) (v : β) :
    ∀ l : List (String × β),
      (l.map Prod.fst).Nodup → (t, v) ∈ l → lookupKey t l = some v := by
  intro l
  induction l with
  | nil => intro _ h; cases h
  | cons p rest ih =>
    obtain ⟨k, w⟩ := p
    intro hnd hmem
    rw [List.map_cons, List.nodup_cons] at hnd
    rcases List.mem_cons.mp hmem with heq | hmem
    · cases heq
      simp [lookupKey]
    · have hne : ¬ k = t := by
        intro hk
        subst hk
        exact hnd.1 (List.mem_map.mpr ⟨(k, v), hmem, rfl⟩)
      simp only [lookupKey, if_neg hne]
      exact ih hnd.2 hmem

theorem valAt_calcDf_aux (fl : List (List (String × ℕ))) :
    ∀ (acc : List (String × ℕ)) (t : String),
      (∀ fr ∈ fl, (fr.map Prod.fst).Nodup) →
      valAt t (fl.foldl (fun acc freqs => (freqs.map Prod.fst).foldl bump acc) acc) =
        valAt t acc + (fl.filter (fun fr => decide (t ∈ fr.map Prod.fst))).length := by
  induction fl with
  | nil => intro acc t _; simp
  | cons fr fl ih =>
    intro acc t hnd
    rw [List.foldl_cons, ih _ t (fun fr' h => hnd fr' (List.mem_cons_of_mem _ h)),
      valAt_foldl_bump]
    have hfr := hnd fr (List.mem_cons_self _ _)
    by_cases hmem : t ∈ fr.map Prod.fst
    · rw [List.count_eq_one_of_mem hfr hmem, List.filter_cons_of_pos (by simpa using hmem),
        List.length_cons]
      omega
    · rw [List.count_eq_zero_of_not_mem hmem, List.filter_cons_of_neg (by simpa using hmem)]
      omega

theorem valAt_calcDf (fl : List (List (String × ℕ))) (t : String)
    (hnd : ∀ fr ∈ fl, (fr.map Prod.fst).Nodup) :
    valAt t (calcDf fl) =
      (fl.filter (fun fr => decide (t ∈ fr.map Prod.fst))).length := by
  unfold calcDf
  rw [valAt_calcDf_aux fl [] t hnd]
  simp [valAt, lookupKey]

theorem calcDf_keys_nodup (fl : List (List (String × ℕ))) :
    ((calcDf fl).map Prod.fst).Nodup := by
  unfold calcDf
  have : ∀ (fl' : List (List (String × ℕ))) (acc : List (String × ℕ)),
      (acc.map Prod.fst).Nodup →
      ((fl'.foldl (fun acc freqs => (freqs.map Prod.fst).foldl bump acc) acc).map Prod.fst).Nodup := by
    intro fl'
    induction fl' with
    | nil => intro acc h; exact h
    | cons fr fl' ih =>
      intro acc h
      exact ih _ (nodup_keys_foldl_bump _ acc h)
  exact this fl [] (by simp)

theorem sparseInv_reachable (st : SparseState) (h : Reachable st) : sparseInv st := by
  induction h with
  | init =>
    refine ⟨rfl, rfl, by simp [init], by simp [init], ?_⟩
    simp [init, calculate_idf, calcDf]
  | add_documents st docs _ ih =>
    obtain ⟨hk1, hb, hdf, hcs, _⟩ := ih
    unfold add_documents
    by_cases hd : docs = []
    · rw [if_pos hd]
      exact ⟨hk1, hb, hdf, hcs, by assumption⟩
    · rw [if_neg hd]
      refine ⟨hk1, hb, ?_, ?_, rfl⟩
      · simp only [hdf, List.map_append]
      · simp

end SparseRetriever

/-- C4: at every reachable sparse-index state, the stored IDF of every term
`t` is `ln(1 + (N − df(t) + 0.5) / (df(t) + 0.5))` with `N` the corpus size
and `df(t)` the number of indexed chunks containing `t`, and the BM25
parameters are the defaults `k1 = 1.5`, `b = 0.75`. -/
theorem claim_C4_idf (st : SparseState) (h : SparseRetriever.Reachable st) :
    st.k1 = 3/2 ∧ st.b = 3/4 ∧
    ∀ t v, (t, v) ∈ st.idf →
      v = Real.log (1 + ((st.documents.length : ℝ) - (SparseRetriever.dfSpec st t : ℝ) + 1/2) /
        ((SparseRetriever.dfSpec st t : ℝ) + 1/2)) := by
  obtain ⟨hk1, hb, hdf, hcs, hidf⟩ := SparseRetriever.sparseInv_reachable st h
  refine ⟨hk1, hb, ?_⟩
  intro t v hv
  rw [hidf] at hv
  unfold SparseRetriever.calculate_idf at hv
  obtain ⟨p, hp, hpe⟩ := List.mem_map.mp hv
  have hpt : p.1 = t := congrArg Prod.fst hpe
  have hpv : v =
      Real.log ((1 + ((st.corpus_size : ℚ) - (p.2 : ℚ) + 1/2) / ((p.2 : ℚ) + 1/2) : ℚ) : ℝ) :=
    (congrArg Prod.snd hpe).symm
  have hlk : lookupKey t (SparseRetriever.calcDf st.doc_freqs) = some p.2 := by
    have hm := SparseRetriever.lookupKey_of_mem_nodup p.1 p.2 (SparseRetriever.calcDf st.doc_freqs)
      (SparseRetriever.calcDf_keys_nodup st.doc_freqs) (by simpa using hp)
    rwa [hpt] at hm
  have hval : SparseRetriever.valAt t (SparseRetriever.calcDf st.doc_freqs) = p.2 := by
    unfold SparseRetriever.valAt
    rw [hlk]
    rfl
  have hnd : ∀ fr ∈ st.doc_freqs, (fr.map Prod.fst).Nodup := by
    intro fr hfr
    rw [hdf] at hfr
    obtain ⟨d, _, rfl⟩ := List.mem_map.mp hfr
    exact SparseRetriever.counter_keys_nodup _
  have hcalc := SparseRetriever.valAt_calcDf st.doc_freqs t hnd
  have hdfspec : p.2 = SparseRetriever.dfSpec st t := by
    rw [← hval, hcalc, hdf]
    unfold SparseRetriever.dfSpec
    rw [List.filter_map, List.length_map]
    congr 1
    apply List.filter_congr
    intro d _
    simp only [Function.comp]
    exact decide_eq_decide.mpr (SparseRetriever.mem_keys_counter _ t)
  rw [hpv, hdfspec, hcs]
  congr 1
  push_cast
  ring

/-- Witness for C4 at `c4State`: the single stored IDF entry is the claimed
formula at `N = 1`, `df("apple") = 1`. -/
theorem claim_C4_idf_witness :
    SparseRetriever.Reachable c4State ∧
    ("apple", Real.log ((1 + ((1 : ℚ) - (1 : ℚ) + 1/2) / ((1 : ℚ) + 1/2) : ℚ) : ℝ)) ∈
      c4State.idf ∧
    Real.log ((1 + ((1 : ℚ) - (1 : ℚ) + 1/2) / ((1 : ℚ) + 1/2) : ℚ) : ℝ) =
      Real.log (1 + ((c4State.documents.length : ℝ) -
        (SparseRetriever.dfSpec c4State "apple" : ℝ) + 1/2) /
        ((SparseRetriever.dfSpec c4State "apple" : ℝ) + 1/2)) := by
  have hreach : SparseRetriever.Reachable c4State :=
    SparseRetriever.Reachable.add_documents _ _ SparseRetriever.Reachable.init
  have h1 : SparseRetriever.counter (SparseRetriever.tokenize "apple") = [("apple", 1)] := by
    decide
  have hidf : c4State.idf =
      [("apple", Real.log ((1 + ((1 : ℚ) - (1 : ℚ) + 1/2) / ((1 : ℚ) + 1/2) : ℚ) : ℝ))] := by
    simp [c4State, SparseRetriever.add_documents, SparseRetriever.init,
      SparseRetriever.calculate_idf, SparseRetriever.calcDf, h1, SparseRetriever.bump,
      setKey, lookupKey]
  have hmem : ("apple", Real.log ((1 + ((1 : ℚ) - (1 : ℚ) + 1/2) / ((1 : ℚ) + 1/2) : ℚ) : ℝ)) ∈
      c4State.idf := by
    rw [hidf]
    exact List.mem_singleton.mpr rfl
  exact ⟨hreach, hmem, (claim_C4_idf c4State hreach).2.2 "apple" _ hmem⟩

/-! ### C5 — sparse search ordering -/

theorem c5State_scores : SparseRetriever.bm25Scores c5State "apple" = [c5E, c5E] := by
  have htok : SparseRetriever.tokenize "apple" = ["apple"] := by decide
  have hfr : SparseRetriever.counter (SparseRetriever.tokenize "apple") = [("apple", 1)] := by
    decide
  unfold SparseRetriever.bm25Scores c5E
  rw [htok]
  simp [c5State, SparseRetriever.add_documents, SparseRetriever.init,
    SparseRetriever.calculate_idf, SparseRetriever.calcDf, hfr, SparseRetriever.bump,
    setKey, lookupKey, SparseRetriever.scoreContribution, SparseRetriever.docLen,
    List.replicate]

theorem c5E_pos : (0:ℝ) < c5E := by
  unfold c5E
  apply div_pos
  · apply mul_pos
    · apply Real.log_pos
      norm_num
    · norm_num
  · norm_num

theorem c5State_searchIdx : SparseRetriever.searchIdx c5State "apple" 5 = [1, 0] := by
  have hdocs : c5State.documents =
      [{ text := "apple", article_id := "0" }, { text := "apple", article_id := "1" }] := by
    simp [c5State, SparseRetriever.add_documents, SparseRetriever.init]
  unfold SparseRetriever.searchIdx
  rw [c5State_scores, hdocs]
  rw [if_neg (by simp)]
  unfold argsortAsc
  simp [List.enum, List.enumFrom, List.insertionSort, List.orderedInsert, keyLE,
    le_refl, List.getD, c5E_pos]

/-- C5 (counterexample): on a state holding two equal-scored chunks, search
returns the later-inserted chunk first, so the insertion-order tie-break the
claim asserts fails. -/
theorem claim_C5_counterexample : ¬ c5ClaimedOrder c5State "apple" 5 := by
  intro h
  have hpair := h.2
  rw [c5State_searchIdx, c5State_scores] at hpair
  have h10 := (List.pairwise_cons.mp hpair).1 0 (List.mem_singleton.mpr rfl)
  rcases h10 with hlt | ⟨_, hidx⟩
  · simp [List.getD] at hlt
  · exact absurd hidx (by omega)

/-- C5 (amended): `SparseRetriever.search` returns the documents of
`searchIdx` with their scores; every returned index has strictly positive
BM25 score and the result is ordered by score descending — but ties between
equal-scored chunks are broken by reverse insertion order (the later-inserted
chunk first), because `np.argsort` ascending (modelled as a stable sort) is
reversed by `[::-1]`. -/
theorem claim_C5_search_order (st : SparseState) (q : String) (k : ℕ) :
    SparseRetriever.search st q k = (SparseRetriever.searchIdx st q k).map
      (fun i => (st.documents.getD i default, (SparseRetriever.bm25Scores st q).getD i 0)) ∧
    (∀ i ∈ SparseRetriever.searchIdx st q k,
      (0:ℝ) < (SparseRetriever.bm25Scores st q).getD i 0) ∧
    (SparseRetriever.searchIdx st q k).Pairwise (fun i j =>
      (SparseRetriever.bm25Scores st q).getD j 0 < (SparseRetriever.bm25Scores st q).getD i 0 ∨
      ((SparseRetriever.bm25Scores st q).getD i 0 = (SparseRetriever.bm25Scores st q).getD j 0 ∧
        j < i)) := by
  refine ⟨rfl, ?_, ?_⟩
  · intro i hi
    unfold SparseRetriever.searchIdx at hi
    by_cases hd : st.documents = []
    · rw [if_pos hd] at hi
      cases hi
    · rw [if_neg hd] at hi
      have := (List.mem_filter.mp hi).2
      exact of_decide_eq_true this
  · unfold SparseRetriever.searchIdx
    by_cases hd : st.documents = []
    · rw [if_pos hd]
      exact List.Pairwise.nil
    · rw [if_neg hd]
      have hasc := argsortAsc_pairwise (0:ℝ) (SparseRetriever.bm25Scores st q)
      have hrev : ((argsortAsc (SparseRetriever.bm25Scores st q)).reverse).Pairwise
          (fun i j =>
            (SparseRetriever.bm25Scores st q).getD j 0 <
              (SparseRetriever.bm25Scores st q).getD i 0 ∨
            ((SparseRetriever.bm25Scores st q).getD i 0 =
              (SparseRetriever.bm25Scores st q).getD j 0 ∧ j < i)) := by
        refine List.pairwise_reverse.mpr ?_
        refine hasc.imp ?_
        intro a b hab
        rcases hab with hlt | ⟨heq, hio⟩
        · exact Or.inl hlt
        · exact Or.inr ⟨heq.symm, hio⟩
      have htop : ((if k = 0 then (argsortAsc (SparseRetriever.bm25Scores st q)).reverse
          else (argsortAsc (SparseRetriever.bm25Scores st q)).reverse.take k)).Pairwise
          (fun i j =>
            (SparseRetriever.bm25Scores st q).getD j 0 <
              (SparseRetriever.bm25Scores st q).getD i 0 ∨
            ((SparseRetriever.bm25Scores st q).getD i 0 =
              (SparseRetriever.bm25Scores st q).getD j 0 ∧ j < i)) := by
        by_cases hk : k = 0
        · rw [if_pos hk]
          exact hrev
        · rw [if_neg hk]
          exact List.Pairwise.sublist (List.take_sublist k _) hrev
      exact List.Pairwise.sublist (List.filter_sublist _) htop

/-! ### C3 — RRF fusion -/

theorem lookupKey_dictAdd (key t : String) (doc : ChunkDoc × ℝ) (c : ℚ) :
    ∀ d : List RrfEntry,
      lookupKey t (dictAdd d key doc c) =
        if key = t then
          (match lookupKey t d with
          | some p => some (p.1, p.2 + c)
          | none => some (doc, c))
        else lookupKey t d := by
  intro d
  induction d with
  | nil =>
    by_cases hkt : key = t <;> simp [dictAdd, lookupKey, hkt]
  | cons e rest ih =>
    obtain ⟨k, p, s⟩ := e
    by_cases hk : k = key
    · subst hk
      by_cases hkt : k = t
      · subst hkt
        simp [dictAdd, lookupKey]
      · simp [dictAdd, lookupKey, hkt]
    · by_cases hkt : k = t
      · subst hkt
        have hkey : ¬ key = k := fun h => hk h.symm
        simp [dictAdd, lookupKey, hk, hkey]
      · simp [dictAdd, lookupKey, hk, hkt, ih]

theorem entryScore_dictAdd (key t : String) (doc : ChunkDoc × ℝ) (c : ℚ)
    (d : List RrfEntry) :
    entryScore (dictAdd d key doc c) t =
      entryScore d t + (if key = t then c else 0) := by
  unfold entryScore
  rw [lookupKey_dictAdd]
  by_cases hkt : key = t
  · rw [if_pos hkt, if_pos hkt]
    cases hl : lookupKey t d with
    | none => simp
    | some p => simp
  · rw [if_neg hkt, if_neg hkt]
    simp

theorem mem_keys_dictAdd (key t : String) (doc : ChunkDoc × ℝ) (c : ℚ) :
    ∀ d : List RrfEntry,
      (t ∈ (dictAdd d key doc c).map Prod.fst ↔ t ∈ d.map Prod.fst ∨ t = key) := by
  intro d
  induction d with
  | nil => simp [dictAdd, eq_comm]
  | cons e rest ih =>
    obtain ⟨k, p, s⟩ := e
    by_cases hk : k = key
    · subst hk
      simp only [dictAdd, eq_self_iff_true, if_true, List.map_cons, List.mem_cons]
      tauto
    · simp only [dictAdd, if_neg hk, List.map_cons, List.mem_cons, ih]
      tauto

theorem nodup_keys_dictAdd (key : String) (doc : ChunkDoc × ℝ) (c : ℚ) :
    ∀ d : List RrfEntry,
      (d.map Prod.fst).Nodup → ((dictAdd d key doc c).map Prod.fst).Nodup := by
  intro d
  induction d with
  | nil => intro _; simp [dictAdd]
  | cons e rest ih =>
    obtain ⟨k, p, s⟩ := e
    intro h
    rw [List.map_cons, List.nodup_cons] at h
    by_cases hk : k = key
    · subst hk
      simp only [dictAdd, eq_self_iff_true, if_true, List.map_cons, List.nodup_cons]
      exact h
    · simp only [dictAdd, if_neg hk, List.map_cons, List.nodup_cons]
      refine ⟨?_, ih h.2⟩
      intro hc
      rcases (mem_keys_dictAdd key k doc c rest).mp hc with hc | hc
      · exact h.1 hc
      · exact hk hc

theorem keyInv_dictAdd (key : String) (doc : ChunkDoc × ℝ) (c : ℚ)
    (hdoc : key = doc.1.text) :
    ∀ d : List RrfEntry,
      (∀ e ∈ d, e.1 = e.2.1.1.text) →
      ∀ e ∈ dictAdd d key doc c, e.1 = e.2.1.1.text := by
  intro d
  induction d with
  | nil =>
    intro _ e he
    simp only [dictAdd, List.mem_singleton] at he
    subst he
    exact hdoc
  | cons f rest ih =>
    obtain ⟨k, p, s⟩ := f
    intro h e he
    by_cases hk : k = key
    · subst hk
      simp only [dictAdd, eq_self_iff_true, if_true, List.mem_cons] at he
      rcases he with rfl | he
      · exact h (k, p, s) (List.mem_cons_self _ _)
      · exact h e (List.mem_cons_of_mem _ he)
    · simp only [dictAdd, if_neg hk, List.mem_cons] at he
      rcases he with rfl | he
      · exact h (k, p, s) (List.mem_cons_self _ _)
      · exact ih (fun e' he' => h e' (List.mem_cons_of_mem _ he')) e he

theorem entryScore_foldFrom (rrfk : ℕ) (t : String) :
    ∀ (hits : List (ChunkDoc × ℝ)) (n : ℕ) (start : List RrfEntry),
      entryScore ((hits.enumFrom n).foldl
        (fun acc p => dictAdd acc p.2.1.text p.2 (1 / ((rrfk : ℚ) + (p.1 : ℚ) + 1))) start) t =
      entryScore start t + sumContrib rrfk n t hits := by
  intro hits
  induction hits with
  | nil => intro n start; simp [sumContrib]
  | cons h rest ih =>
    intro n start
    rw [show (h :: rest).enumFrom n = (n, h) :: rest.enumFrom (n + 1) from rfl,
      List.foldl_cons, ih, entryScore_dictAdd]
    show entryScore start t + (if h.1.text = t then _ else 0) + _ = _
    rw [show sumContrib rrfk n t (h :: rest) =
      (if h.1.text = t then 1 / ((rrfk : ℚ) + (n : ℚ) + 1) else 0) +
        sumContrib rrfk (n + 1) t rest from rfl]
    ring

theorem entryScore_rrfFold (rrfk : ℕ) (t : String) (hits : List (ChunkDoc × ℝ))
    (start : List RrfEntry) :
    entryScore (rrfFold start hits rrfk) t =
      entryScore start t + sumContrib rrfk 0 t hits := by
  unfold rrfFold
  exact entryScore_foldFrom rrfk t hits 0 start

theorem mem_keys_foldFrom (rrfk : ℕ) (t : String) :
    ∀ (hits : List (ChunkDoc × ℝ)) (n : ℕ) (start : List RrfEntry),
      (t ∈ ((hits.enumFrom n).foldl
        (fun acc p => dictAdd acc p.2.1.text p.2 (1 / ((rrfk : ℚ) + (p.1 : ℚ) + 1)))
          start).map Prod.fst ↔
        t ∈ start.map Prod.fst ∨ t ∈ hits.map (fun h => h.1.text)) := by
  intro hits
  induction hits with
  | nil => intro n start; simp
  | cons h rest ih =>
    intro n start
    rw [show (h :: rest).enumFrom n = (n, h) :: rest.enumFrom (n + 1) from rfl,
      List.foldl_cons, ih, mem_keys_dictAdd]
    simp only [List.map_cons, List.mem_cons]
    tauto

theorem nodup_keys_foldFrom (rrfk : ℕ) :
    ∀ (hits : List (ChunkDoc × ℝ)) (n : ℕ) (start : List RrfEntry),
      (start.map Prod.fst).Nodup →
      (((hits.enumFrom n).foldl
        (fun acc p => dictAdd acc p.2.1.text p.2 (1 / ((rrfk : ℚ) + (p.1 : ℚ) + 1)))
          start).map Prod.fst).Nodup := by
  intro hits
  induction hits with
  | nil => intro n start h; exact h
  | cons h rest ih =>
    intro n start hs
    rw [show (h :: rest).enumFrom n = (n, h) :: rest.enumFrom (n + 1) from rfl,
      List.foldl_cons]
    exact ih _ _ (nodup_keys_dictAdd _ _ _ start hs)

theorem keyInv_foldFrom (rrfk : ℕ) :
    ∀ (hits : List (ChunkDoc × ℝ)) (n : ℕ) (start : List RrfEntry),
      (∀ e ∈ start, e.1 = e.2.1.1.text) →
      ∀ e ∈ (hits.enumFrom n).foldl
        (fun acc p => dictAdd acc p.2.1.text p.2 (1 / ((rrfk : ℚ) + (p.1 : ℚ) + 1))) start,
        e.1 = e.2.1.1.text := by
  intro hits
  induction hits with
  | nil => intro n start h; exact h
  | cons h rest ih =>
    intro n start hs
    rw [show (h :: rest).enumFrom n = (n, h) :: rest.enumFrom (n + 1) from rfl,
      List.foldl_cons]
    exact ih _ _ (keyInv_dictAdd _ _ _ rfl start hs)

theorem sumContrib_eq_zero_of_not_mem (rrfk : ℕ) (t : String) :
    ∀ (hits : List (ChunkDoc × ℝ)) (n : ℕ),
      t ∉ hits.map (fun h => h.1.text) → sumContrib rrfk n t hits = 0 := by
  intro hits
  induction hits with
  | nil => intro n _; rfl
  | cons h rest ih =>
    intro n hmem
    simp only [List.map_cons, List.mem_cons] at hmem
    push_neg at hmem
    rw [show sumContrib rrfk n t (h :: rest) =
      (if h.1.text = t then 1 / ((rrfk : ℚ) + (n : ℚ) + 1) else 0) +
        sumContrib rrfk (n + 1) t rest from rfl]
    rw [if_neg (fun hc => hmem.1 hc.symm), ih _ hmem.2]
    ring

theorem sumContrib_findIdx (rrfk : ℕ) (t : String) :
    ∀ (hits : List (ChunkDoc × ℝ)) (n : ℕ),
      (hits.map (fun h => h.1.text)).Nodup →
      sumContrib rrfk n t hits =
        (match (hits.map (fun h => h.1.text)).findIdx? (fun s => decide (s = t)) n with
         | some i => 1 / ((rrfk : ℚ) + (i : ℚ) + 1)
         | none => 0) := by
  intro hits
  induction hits with
  | nil => intro n _; simp [sumContrib, List.findIdx?]
  | cons h rest ih =>
    intro n hnd
    rw [List.map_cons, List.nodup_cons] at hnd
    rw [show sumContrib rrfk n t (h :: rest) =
      (if h.1.text = t then 1 / ((rrfk : ℚ) + (n : ℚ) + 1) else 0) +
        sumContrib rrfk (n + 1) t rest from rfl]
    rw [List.map_cons, List.findIdx?_cons]
    by_cases ht : h.1.text = t
    · rw [if_pos ht, if_pos (by simp [ht])]
      have hzero : sumContrib rrfk (n + 1) t rest = 0 := by
        apply sumContrib_eq_zero_of_not_mem
        rw [← ht]
        exact hnd.1
      rw [hzero]
      ring
    · rw [if_neg ht, if_neg (by simp [ht]), ih (n + 1) hnd.2]
      ring

theorem sumContrib_eq_rankContrib (rrfk : ℕ) (t : String) (hits : List (ChunkDoc × ℝ))
    (h : (hits.map (fun h => h.1.text)).Nodup) :
    sumContrib rrfk 0 t hits = rankContrib hits rrfk t := by
  rw [sumContrib_findIdx rrfk t hits 0 h]
  unfold rankContrib
  cases hf : (hits.map (fun h => h.1.text)).findIdx? (fun s => decide (s = t)) with
  | none => simp [hf]
  | some i =>
    simp only [hf]
    rw [add_assoc]

theorem entryScore_nil (t : String) : entryScore [] t = 0 := rfl

theorem rrfFold_as_foldFrom (start : List RrfEntry) (hits : List (ChunkDoc × ℝ))
    (rrfk : ℕ) :
    rrfFold start hits rrfk = (hits.enumFrom 0).foldl
      (fun acc p => dictAdd acc p.2.1.text p.2 (1 / ((rrfk : ℚ) + (p.1 : ℚ) + 1))) start := rfl

theorem rrfEntries_score (ds ss : List (ChunkDoc × ℝ)) (rrfk : ℕ) (t : String)
    (hd : (ds.map (fun h => h.1.text)).Nodup) (hs : (ss.map (fun h => h.1.text)).Nodup) :
    entryScore (rrfFold (rrfFold [] ds rrfk) ss rrfk) t = rrfSpecScore ds ss rrfk t := by
  rw [entryScore_rrfFold, entryScore_rrfFold, entryScore_nil, zero_add,
    sumContrib_eq_rankContrib rrfk t ds hd, sumContrib_eq_rankContrib rrfk t ss hs]
  rfl

theorem rrfEntries_keys_nodup (ds ss : List (ChunkDoc × ℝ)) (rrfk : ℕ) :
    ((rrfFold (rrfFold [] ds rrfk) ss rrfk).map Prod.fst).Nodup := by
  rw [rrfFold_as_foldFrom, rrfFold_as_foldFrom]
  apply nodup_keys_foldFrom
  apply nodup_keys_foldFrom
  simp

theorem rrfEntries_keyInv (ds ss : List (ChunkDoc × ℝ)) (rrfk : ℕ) :
    ∀ e ∈ rrfFold (rrfFold [] ds rrfk) ss rrfk, e.1 = e.2.1.1.text := by
  rw [rrfFold_as_foldFrom, rrfFold_as_foldFrom]
  apply keyInv_foldFrom
  apply keyInv_foldFrom
  intro e he
  cases he

theorem rrfEntries_mem_keys (ds ss : List (ChunkDoc × ℝ)) (rrfk : ℕ) (t : String) :
    t ∈ (rrfFold (rrfFold [] ds rrfk) ss rrfk).map Prod.fst ↔
      t ∈ ds.map (fun h => h.1.text) ∨ t ∈ ss.map (fun h => h.1.text) := by
  rw [rrfFold_as_foldFrom, rrfFold_as_foldFrom, mem_keys_foldFrom, mem_keys_foldFrom]
  simp only [List.map_nil, List.not_mem_nil, false_or]

theorem rrfEntries_score_of_mem (ds ss : List (ChunkDoc × ℝ)) (rrfk : ℕ)
    (hd : (ds.map (fun h => h.1.text)).Nodup) (hs : (ss.map (fun h => h.1.text)).Nodup)
    (e : RrfEntry) (he : e ∈ rrfFold (rrfFold [] ds rrfk) ss rrfk) :
    e.2.2 = rrfSpecScore ds ss rrfk e.1 := by
  have hlk : lookupKey e.1 (rrfFold (rrfFold [] ds rrfk) ss rrfk) = some e.2 :=
    SparseRetriever.lookupKey_of_mem_nodup e.1 e.2 _ (rrfEntries_keys_nodup ds ss rrfk) he
  have hscore : entryScore (rrfFold (rrfFold [] ds rrfk) ss rrfk) e.1 = e.2.2 := by
    unfold entryScore
    rw [hlk]
    rfl
  rw [← hscore, rrfEntries_score ds ss rrfk e.1 hd hs]

theorem pairwise_take_drop {α : Type} {R : α → α → Prop} {l : List α}
    (h : l.Pairwise R) (k : ℕ) :
    ∀ x ∈ l.take k, ∀ y ∈ l.drop k, R x y := by
  have h2 : (l.take k ++ l.drop k).Pairwise R := by
    rw [List.take_append_drop]
    exact h
  exact (List.pairwise_append.mp h2).2.2

theorem rrfFuse_def (ds ss : List (ChunkDoc × ℝ)) (k rrfk : ℕ) :
    rrfFuse ds ss k rrfk =
      ((List.insertionSort (fun a b : RrfEntry => b.2.2 ≤ a.2.2)
        (rrfFold (rrfFold [] ds rrfk) ss rrfk)).take k).map (fun e => e.2.1) := rfl

theorem rrfFuse_spec (ds ss : List (ChunkDoc × ℝ)) (k rrfk : ℕ)
    (hd : (ds.map (fun h => h.1.text)).Nodup) (hs : (ss.map (fun h => h.1.text)).Nodup) :
    (rrfFuse ds ss k rrfk).length ≤ k ∧
    (∀ h ∈ rrfFuse ds ss k rrfk,
      h.1.text ∈ ds.map (fun x => x.1.text) ∨ h.1.text ∈ ss.map (fun x => x.1.text)) ∧
    (rrfFuse ds ss k rrfk).Pairwise (fun h1 h2 =>
      rrfSpecScore ds ss rrfk h2.1.text ≤ rrfSpecScore ds ss rrfk h1.1.text) ∧
    (∀ t, (t ∈ ds.map (fun x => x.1.text) ∨ t ∈ ss.map (fun x => x.1.text)) →
      t ∉ (rrfFuse ds ss k rrfk).map (fun x => x.1.text) →
      ∀ h ∈ rrfFuse ds ss k rrfk,
        rrfSpecScore ds ss rrfk t ≤ rrfSpecScore ds ss rrfk h.1.text) := by
  have hperm := List.perm_insertionSort (fun a b : RrfEntry => b.2.2 ≤ a.2.2)
    (rrfFold (rrfFold [] ds rrfk) ss rrfk)
  have hsorted : (List.insertionSort (fun a b : RrfEntry => b.2.2 ≤ a.2.2)
      (rrfFold (rrfFold [] ds rrfk) ss rrfk)).Pairwise (fun a b : RrfEntry => b.2.2 ≤ a.2.2) :=
    List.sorted_insertionSort (fun a b : RrfEntry => b.2.2 ≤ a.2.2)
      (rrfFold (rrfFold [] ds rrfk) ss rrfk)
  refine ⟨?_, ?_, ?_, ?_⟩
  · rw [rrfFuse_def, List.length_map]
    exact List.length_take_le k _
  · intro h hh
    rw [rrfFuse_def] at hh
    obtain ⟨e, he, rfl⟩ := List.mem_map.mp hh
    have heE : e ∈ rrfFold (rrfFold [] ds rrfk) ss rrfk :=
      hperm.subset ((List.take_sublist k _).subset he)
    rw [← rrfEntries_keyInv ds ss rrfk e heE]
    exact (rrfEntries_mem_keys ds ss rrfk e.1).mp (List.mem_map.mpr ⟨e, heE, rfl⟩)
  · rw [rrfFuse_def, List.pairwise_map]
    have htake := List.Pairwise.sublist (List.take_sublist k _) hsorted
    refine List.Pairwise.imp_of_mem ?_ htake
    intro a b ha hb hab
    have haE : a ∈ rrfFold (rrfFold [] ds rrfk) ss rrfk :=
      hperm.subset ((List.take_sublist k _).subset ha)
    have hbE : b ∈ rrfFold (rrfFold [] ds rrfk) ss rrfk :=
      hperm.subset ((List.take_sublist k _).subset hb)
    rw [← rrfEntries_keyInv ds ss rrfk a haE, ← rrfEntries_keyInv ds ss rrfk b hbE,
      ← rrfEntries_score_of_mem ds ss rrfk hd hs a haE,
      ← rrfEntries_score_of_mem ds ss rrfk hd hs b hbE]
    exact hab
  · intro t ht htout h hh
    rw [rrfFuse_def] at hh
    obtain ⟨x, hx, rfl⟩ := List.mem_map.mp hh
    have htk : t ∈ (rrfFold (rrfFold [] ds rrfk) ss rrfk).map Prod.fst :=
      (rrfEntries_mem_keys ds ss rrfk t).mpr ht
    obtain ⟨e, heE, het⟩ := List.mem_map.mp htk
    have heS : e ∈ List.insertionSort (fun a b : RrfEntry => b.2.2 ≤ a.2.2)
        (rrfFold (rrfFold [] ds rrfk) ss rrfk) := hperm.mem_iff.mpr heE
    have heSplit : e ∈ (List.insertionSort (fun a b : RrfEntry => b.2.2 ≤ a.2.2)
        (rrfFold (rrfFold [] ds rrfk) ss rrfk)).take k ++
        (List.insertionSort (fun a b : RrfEntry => b.2.2 ≤ a.2.2)
        (rrfFold (rrfFold [] ds rrfk) ss rrfk)).drop k := by
      rw [List.take_append_drop]
      exact heS
    rcases List.mem_append.mp heSplit with hin | hdrop
    · exfalso
      apply htout
      rw [rrfFuse_def]
      refine List.mem_map.mpr ⟨e.2.1, List.mem_map.mpr ⟨e, hin, rfl⟩, ?_⟩
      rw [← rrfEntries_keyInv ds ss rrfk e heE]
      exact het
    · have hcross := pairwise_take_drop hsorted k x hx e hdrop
      have hxE : x ∈ rrfFold (rrfFold [] ds rrfk) ss rrfk :=
        hperm.subset ((List.take_sublist k _).subset hx)
      rw [← het, ← rrfEntries_score_of_mem ds ss rrfk hd hs e heE,
        ← rrfEntries_keyInv ds ss rrfk x hxE,
        ← rrfEntries_score_of_mem ds ss rrfk hd hs x hxE]
      exact hcross

/-- C3: `HybridRetriever.retrieve` asks the dense store and the sparse index
for `2k` candidates each and fuses them with RRF at the default `rrf_k = 60`:
every dict entry's fused score is the specification's
`Σ 1 / (rrf_k + rank_in_list)` over the two lists (0 from a list not holding
the chunk), and the result is at most `k` candidate chunks sorted by fused
score descending, each fused score dominating every non-returned candidate.
Texts are assumed unique within each candidate list (each chunk occurs at
most once per list), which is what makes `rank_in_list` well defined. -/
theorem claim_C3_rrf (embed : String → List ℝ) (hst : HybridState) (q : String) (k : ℕ)
    (hd : ((VectorStore.search embed hst.vector_store q (k * 2)).map
      (fun h => h.1.text)).Nodup)
    (hs : ((SparseRetriever.search hst.sparse_retriever q (k * 2)).map
      (fun h => h.1.text)).Nodup) :
    HybridRetriever.retrieve embed hst q k 60 =
      rrfFuse (VectorStore.search embed hst.vector_store q (k * 2))
        (SparseRetriever.search hst.sparse_retriever q (k * 2)) k 60 ∧
    (∀ e ∈ rrfFold (rrfFold [] (VectorStore.search embed hst.vector_store q (k * 2)) 60)
        (SparseRetriever.search hst.sparse_retriever q (k * 2)) 60,
      e.2.2 = rrfSpecScore (VectorStore.search embed hst.vector_store q (k * 2))
        (SparseRetriever.search hst.sparse_retriever q (k * 2)) 60 e.1) ∧
    (HybridRetriever.retrieve embed hst q k 60).length ≤ k ∧
    (∀ h ∈ HybridRetriever.retrieve embed hst q k 60,
      h.1.text ∈ (VectorStore.search embed hst.vector_store q (k * 2)).map
        (fun x => x.1.text) ∨
      h.1.text ∈ (SparseRetriever.search hst.sparse_retriever q (k * 2)).map
        (fun x => x.1.text)) ∧
    (HybridRetriever.retrieve embed hst q k 60).Pairwise (fun h1 h2 =>
      rrfSpecScore (VectorStore.search embed hst.vector_store q (k * 2))
        (SparseRetriever.search hst.sparse_retriever q (k * 2)) 60 h2.1.text ≤
      rrfSpecScore (VectorStore.search embed hst.vector_store q (k * 2))
        (SparseRetriever.search hst.sparse_retriever q (k * 2)) 60 h1.1.text) ∧
    (∀ t, (t ∈ (VectorStore.search embed hst.vector_store q (k * 2)).map
        (fun x => x.1.text) ∨
        t ∈ (SparseRetriever.search hst.sparse_retriever q (k * 2)).map
          (fun x => x.1.text)) →
      t ∉ (HybridRetriever.retrieve embed hst q k 60).map (fun x => x.1.text) →
      ∀ h ∈ HybridRetriever.retrieve embed hst q k 60,
        rrfSpecScore (VectorStore.search embed hst.vector_store q (k * 2))
          (SparseRetriever.search hst.sparse_retriever q (k * 2)) 60 t ≤
        rrfSpecScore (VectorStore.search embed hst.vector_store q (k * 2))
          (SparseRetriever.search hst.sparse_retriever q (k * 2)) 60 h.1.text) := by
  obtain ⟨h1, h2, h3, h4⟩ := rrfFuse_spec (VectorStore.search embed hst.vector_store q (k * 2))
    (SparseRetriever.search hst.sparse_retriever q (k * 2)) k 60 hd hs
  exact ⟨rfl,
    fun e he => rrfEntries_score_of_mem _ _ 60 hd hs e he,
    h1, h2, h3, h4⟩

/-- Witness for C3 on a fresh (empty) hybrid state: both candidate lists are
empty, the text-uniqueness hypotheses hold trivially, and the fused result
has at most one entry. -/
theorem claim_C3_rrf_witness :
    (HybridRetriever.retrieve emptyEmbed {} "q" 1 60).length ≤ 1 :=
  (claim_C3_rrf emptyEmbed {} "q" 1
    (by rw [show VectorStore.search emptyEmbed ({} : HybridState).vector_store "q" (1 * 2) = []
      from rfl]; simp)
    (by rw [show SparseRetriever.search ({} : HybridState).sparse_retriever "q" (1 * 2) = []
      from rfl]; simp)).2.2.1
